import Mathlib

/-!
# Verification of the basefs in-memory B-tree (src/btree.c)

Shallow embedding of the B-tree implementation in `src/btree.c`.
Keys are `u64` in the source; the code only ever compares keys
(never performs arithmetic on them), so they are modelled as `Nat`.
Fixed-size arrays (`keys[BTREE_MAX_KEYS]`, `children[BTREE_ORDER]`)
together with the `num_keys` counter are modelled as lists holding
exactly the logically live prefix; reads beyond `num_keys` (stale
slots, which `kzalloc` zero-fills) are modelled with `List.getD`
returning the zero default.
-/

/-- `#define BTREE_ORDER 4` — maximum number of children per node. -/
def BTREE_ORDER : Nat := 4

/-- `#define BTREE_MAX_KEYS (BTREE_ORDER - 1)` — max keys in a node. -/
def BTREE_MAX_KEYS : Nat := BTREE_ORDER - 1

/-- `#define BTREE_MIN_KEYS (BTREE_MAX_KEYS / 2)` — min keys after split. -/
def BTREE_MIN_KEYS : Nat := BTREE_MAX_KEYS / 2

/-- `struct btree_node`: `is_leaf`, `num_keys` + `keys[]` (modelled as the
list of the `num_keys` live keys), `children[]` (modelled as the list of
the `num_keys + 1` live child pointers of an internal node; empty for a
leaf, whose child slots are never read). -/
inductive btree_node : Type where
  | mk (is_leaf : Bool) (keys : List Nat) (children : List btree_node)

instance : Inhabited btree_node := ⟨.mk true [] []⟩

/-- field accessor `node->is_leaf` -/
def btree_node.leafFlag : btree_node → Bool
  | .mk l _ _ => l

/-- field accessor: the live prefix of `node->keys` -/
def btree_node.keys : btree_node → List Nat
  | .mk _ ks _ => ks

/-- field accessor: the live prefix of `node->children` -/
def btree_node.children : btree_node → List btree_node
  | .mk _ _ cs => cs

/-- field accessor `node->num_keys` -/
def btree_node.num_keys (n : btree_node) : Nat := n.keys.length

/-- `struct btree_root`: holds the (possibly null) pointer to the root node. -/
structure btree_root : Type where
  root : Option btree_node

instance : Inhabited btree_root := ⟨⟨none⟩⟩

mutual

/-- Height of a node (1 for a leaf): the measure that bounds the
recursion depth of the C routines. Not part of the source; used as
fuel for the insertion recursion. -/
def height : btree_node → Nat
  | .mk _ _ children => 1 + heightL children

/-- Maximum height over a list of nodes. -/
def heightL : List btree_node → Nat
  | [] => 0
  | c :: cs => max (height c) (heightL cs)

end

mutual

/-- All keys stored in a node's subtree (node keys plus subtrees of
its children), as a list. -/
def allKeys : btree_node → List Nat
  | .mk _ keys children => keys ++ allKeysL children

/-- All keys stored in the subtrees of a list of nodes. -/
def allKeysL : List btree_node → List Nat
  | [] => []
  | c :: cs => allKeys c ++ allKeysL cs

end

/-- The multiset of keys stored in a node's subtree. -/
def keysM (t : btree_node) : Multiset Nat := (allKeys t : Multiset Nat)

/-- The multiset of keys stored in the subtrees of a list of nodes. -/
def keysML (cs : List btree_node) : Multiset Nat := (allKeysL cs : Multiset Nat)

/-- The key-scan loop at the head of `btree_search`'s `while (1)` body:
`for (i = 0; i < num_keys; i++) { if (key < keys[i]) break; else if (key == keys[i]) return true; }`.
`none` models the early `return true` (key found); `some i` models
falling through with loop index `i`. -/
def searchStep (key : Nat) : List Nat → Option Nat
  | [] => some 0
  | k :: ks =>
    if key < k then some 0
    else if key = k then none
    else (searchStep key ks).map (· + 1)

mutual

/-- The `while (1)` descent of `btree_search`, one iteration per node:
scan this node's keys; on an exact match return true; otherwise if the
node is a leaf return false, else descend into `children[i]`. -/
def btree_search_node : btree_node → Nat → Bool
  | .mk is_leaf keys children, key =>
    match searchStep key keys with
    | none => true
    | some i =>
      if is_leaf then false
      else btree_search_child children i key

/-- `node = node->children[i]` descent step: walk to the `i`-th child.
An out-of-range index (undefined behavior in C, never reached under the
structural invariant) yields `false`. -/
def btree_search_child : List btree_node → Nat → Nat → Bool
  | [], _, _ => false
  | c :: _, 0, key => btree_search_node c key
  | _ :: cs, i + 1, key => btree_search_child cs i key

end

/-- `btree_search(tree, key)`: null checks on the handle and root,
then the iterative descent. -/
def btree_search (tree : Option btree_root) (key : Nat) : Bool :=
  match tree with
  | none => false
  | some t =>
    match t.root with
    | none => false
    | some root => btree_search_node root key

/-- The right-to-left slot scan shared by both branches of
`btree_insert_nonfull`: `i = num_keys; while (i >= 1 && key < keys[i-1]) i--;`.
`findSlotAux key keys i` is the loop continued from counter value `i`. -/
def findSlotAux (key : Nat) (keys : List Nat) : Nat → Nat
  | 0 => 0
  | i + 1 => if key < keys.getD i 0 then findSlotAux key keys i else i + 1

/-- The slot where `btree_insert_nonfull` places/descends for `key`. -/
def findSlot (key : Nat) (keys : List Nat) : Nat := findSlotAux key keys keys.length

/-- The leaf branch of `btree_insert_nonfull`: the shift-right loop
moves every key the scan passes over one slot right and stores `key`
at the stop position, i.e. the live keys become
`keys[0..i-1], key, keys[i..num_keys-1]` with `i = findSlot key keys`;
`num_keys++`. -/
def leafInsert (key : Nat) (keys : List Nat) : List Nat :=
  keys.take (findSlot key keys) ++ key :: keys.drop (findSlot key keys)

/-- The post-split slot adjustment in `btree_insert_nonfull`:
`if (key > node->keys[i]) i++;` where `node->keys[i]` holds the freshly
promoted median. -/
def splitShift (key median i : Nat) : Nat :=
  if median < key then i + 1 else i

/-- `btree_split_child(parent, index)` (allocation succeeding).
`mid = BTREE_MAX_KEYS / 2`; the new sibling takes the full child's keys
at `mid+1 .. BTREE_MAX_KEYS-1` (and, if internal, children at
`mid+1 .. BTREE_MAX_KEYS`); the child is truncated to its first `mid`
keys (`full_child->num_keys = mid`, children untouched, so an internal
child logically keeps its first `mid+1` children); the parent's keys
and children at positions `>= index` (resp. `>= index+1`) are shifted
right and `keys[index] = full_child->keys[mid]`,
`children[index+1] = new_node`; `parent->num_keys++`. -/
def btree_split_child (parent : btree_node) (index : Nat) : btree_node :=
  match parent with
  | .mk pleaf pkeys pchildren =>
    match pchildren.getD index default with
    | .mk cleaf ckeys cchildren =>
      let mid := BTREE_MAX_KEYS / 2
      let new_node : btree_node :=
        .mk cleaf ((ckeys.drop (mid + 1)).take (BTREE_MAX_KEYS - mid - 1))
          (if cleaf then [] else (cchildren.drop (mid + 1)).take (BTREE_MAX_KEYS - mid))
      let left : btree_node :=
        .mk cleaf (ckeys.take mid) (if cleaf then cchildren else cchildren.take (mid + 1))
      .mk pleaf (pkeys.take index ++ ckeys.getD mid 0 :: pkeys.drop index)
        (pchildren.take index ++ left :: new_node :: pchildren.drop (index + 1))

/-- `btree_insert_nonfull(node, key)` (every allocation succeeding).
`fuel` is an embedding artifact bounding the recursion depth; any
`fuel ≥ height node` gives the behavior of the C recursion (which
terminates because each call descends one level). -/
def btree_insert_nonfull : Nat → btree_node → Nat → btree_node
  | 0, node, _ => node
  | _fuel + 1, .mk true keys children, key =>
      .mk true (leafInsert key keys) children
  | fuel + 1, .mk false keys children, key =>
    let i := findSlot key keys
    if (children.getD i default).num_keys = BTREE_MAX_KEYS then
      match btree_split_child (.mk false keys children) i with
      | .mk l' keys' children' =>
        let i' := splitShift key (keys'.getD i 0) i
        .mk l' keys'
          (children'.set i' (btree_insert_nonfull fuel (children'.getD i' default) key))
    else
      .mk false keys
        (children.set i (btree_insert_nonfull fuel (children.getD i default) key))

/-- `btree_insert(tree, key)` (every allocation succeeding): null
checks; if the root is full, allocate a new root over the old one,
split it and insert into the result, updating `tree->root`; otherwise
insert directly into the non-full root. -/
def btree_insert (tree : Option btree_root) (key : Nat) : Option btree_root :=
  match tree with
  | none => none
  | some t =>
    match t.root with
    | none => some t
    | some root =>
      if root.num_keys = BTREE_MAX_KEYS then
        let new_root : btree_node := .mk false [] [root]
        let nr := btree_split_child new_root 0
        some ⟨some (btree_insert_nonfull (height nr) nr key)⟩
      else
        some ⟨some (btree_insert_nonfull (height root) root key)⟩

/-- The tree returned by a fully successful `btree_init()`: a handle
holding one empty leaf root. -/
def initTree : Option btree_root := some ⟨some (.mk true [] [])⟩

/-- Insert a sequence of keys in order (all allocations succeeding). -/
def insertAll (ks : List Nat) (t : Option btree_root) : Option btree_root :=
  ks.foldl (fun t k => btree_insert t k) t

/-- The root node of a tree handle (default node if null). -/
def rootOf (t : Option btree_root) : btree_node :=
  ((t.getD default).root).getD default

/-- Consume one allocation result from an oracle stream of `kzalloc`
outcomes (`true` = success). An exhausted stream means every further
allocation succeeds. -/
def allocTake : List Bool → Bool × List Bool
  | [] => (true, [])
  | b :: rest => (b, rest)

/-- `btree_split_child` with its `kzalloc` modelled by an oracle: on
allocation failure the function returns with the parent (and child)
unmodified — the silent `return` in the source. -/
def btree_split_childA (parent : btree_node) (index : Nat) (allocs : List Bool) :
    btree_node × List Bool :=
  let (ok, rest) := allocTake allocs
  (if ok then btree_split_child parent index else parent, rest)

/-- `btree_insert_nonfull` with allocation oracle. After a failed split
the C code proceeds unconditionally: it reads `node->keys[i]` (a stale,
zero-filled slot when `i = num_keys`, modelled by `getD`'s 0 default)
and recurses into `children[i]`, which is still full. -/
def btree_insert_nonfullA : Nat → btree_node → Nat → List Bool → btree_node × List Bool
  | 0, node, _, allocs => (node, allocs)
  | _fuel + 1, .mk true keys children, key, allocs =>
      (.mk true (leafInsert key keys) children, allocs)
  | fuel + 1, .mk false keys children, key, allocs =>
    let i := findSlot key keys
    if (children.getD i default).num_keys = BTREE_MAX_KEYS then
      match btree_split_childA (.mk false keys children) i allocs with
      | (.mk l' keys' children', rest) =>
        let i' := splitShift key (keys'.getD i 0) i
        let (c', rest') := btree_insert_nonfullA fuel (children'.getD i' default) key rest
        (.mk l' keys' (children'.set i' c'), rest')
    else
      let (c', rest') := btree_insert_nonfullA fuel (children.getD i default) key allocs
      (.mk false keys (children.set i c'), rest')

/-- `btree_insert` with allocation oracle. A failed `kzalloc` for the
new root makes the function return at once, leaving the tree unchanged
(and, the function being `void`, reporting nothing). -/
def btree_insertA (tree : Option btree_root) (key : Nat) (allocs : List Bool) :
    Option btree_root × List Bool :=
  match tree with
  | none => (none, allocs)
  | some t =>
    match t.root with
    | none => (some t, allocs)
    | some root =>
      if root.num_keys = BTREE_MAX_KEYS then
        let (ok, rest) := allocTake allocs
        if ok then
          let new_root : btree_node := .mk false [] [root]
          let (nr, rest') := btree_split_childA new_root 0 rest
          let (r', rest'') := btree_insert_nonfullA (height nr) nr key rest'
          (some ⟨some r'⟩, rest'')
        else
          (some t, rest)
      else
        let (r', rest') := btree_insert_nonfullA (height root) root key allocs
        (some ⟨some r'⟩, rest')

/-- `btree_init()` with allocation oracle (`a1` for the `btree_root`
handle, `a2` for the root node). Returns the created handle (or `none`
on failure) together with the number of allocations still live — the
partially allocated handle is `kfree`d when the node allocation fails,
so a failing init leaves 0 live allocations. -/
def btree_initA (a1 a2 : Bool) : Option btree_root × Nat :=
  if a1 then
    if a2 then (some ⟨some (.mk true [] [])⟩, 2)
    else (none, 0)
  else (none, 0)

mutual

/-- Number of `kfree` calls performed by `btree_free_node(node)`:
children first (internal nodes only), then the node itself. -/
def btree_free_node : btree_node → Nat
  | .mk is_leaf _ children =>
    (if is_leaf then 0 else btree_free_nodeL children) + 1

/-- `kfree` calls over the children loop `for (i = 0; i <= num_keys; i++)`. -/
def btree_free_nodeL : List btree_node → Nat
  | [] => 0
  | c :: cs => btree_free_node c + btree_free_nodeL cs

end

/-- `btree_destroy(tree)`, observed as its number of `kfree` calls:
0 on a null handle (immediate return), otherwise the recursive free of
the root (when non-null) plus the handle itself. -/
def btree_destroy (tree : Option btree_root) : Nat :=
  match tree with
  | none => 0
  | some t =>
    (match t.root with
     | none => 0
     | some root => btree_free_node root) + 1

mutual

/-- `btree_print_recursive(node, level)`, observed as the list of
printed lines (indentation collapsed to the level number). -/
def btree_print_recursive : btree_node → Nat → List String
  | .mk true keys _, _level =>
      ["Leaf Node: " ++ String.intercalate " " (keys.map toString)]
  | .mk false keys children, level =>
      ("Internal Node: " ++ String.intercalate " " (keys.map toString)) ::
        btree_print_recursiveL children (level + 1)

/-- The `for (i = 0; i <= num_keys; i++)` child-printing loop. -/
def btree_print_recursiveL : List btree_node → Nat → List String
  | [], _ => []
  | c :: cs, level => btree_print_recursive c level ++ btree_print_recursiveL cs level

end

/-- `btree_print(tree)`, observed as the list of printed lines; a null
handle or root prints the empty-tree message. -/
def btree_print (tree : Option btree_root) : List String :=
  match tree with
  | none => ["B+ Tree is empty."]
  | some t =>
    match t.root with
    | none => ["B+ Tree is empty."]
    | some root =>
      "---- B+ Tree Print (in-order) ----" ::
        btree_print_recursive root 0 ++ ["-----------------------------------"]

/-- Lower-bound constraint on a key (`none` = unbounded). -/
def lbOk : Option Nat → Nat → Prop
  | none, _ => True
  | some l, k => l ≤ k

/-- Upper-bound constraint on a key (`none` = unbounded). -/
def ubOk : Option Nat → Nat → Prop
  | none, _ => True
  | some h, k => k ≤ h

mutual

/-- Well-formedness of a subtree whose keys must all lie in `[lo, hi]`
(inclusive; `none` = unbounded): node keys sorted (non-decreasing,
duplicates permitted), at most `BTREE_MAX_KEYS` of them and all within
bounds; a leaf has no live children; an internal node has at least one
key, one more child than keys (chained through `WFChn`), and every
child nonempty (`num_keys ≥ 1`). -/
def WF : Option Nat → Option Nat → btree_node → Prop
  | lo, hi, .mk true keys children =>
      children = [] ∧ List.Sorted (· ≤ ·) keys ∧ keys.length ≤ BTREE_MAX_KEYS ∧
        ∀ k ∈ keys, lbOk lo k ∧ ubOk hi k
  | lo, hi, .mk false keys children =>
      keys ≠ [] ∧ List.Sorted (· ≤ ·) keys ∧ keys.length ≤ BTREE_MAX_KEYS ∧
        (∀ k ∈ keys, lbOk lo k ∧ ubOk hi k) ∧
        (∀ c ∈ children, 1 ≤ c.num_keys) ∧
        WFChn lo hi keys children

/-- The children chain of an internal node: child `i` is well formed
within `[keys[i-1], keys[i]]` (outer bounds at the two ends); forces
`children.length = keys.length + 1`. -/
def WFChn : Option Nat → Option Nat → List Nat → List btree_node → Prop
  | lo, hi, [], [c] => WF lo hi c
  | _, _, [], [] => False
  | _, _, [], _ :: _ :: _ => False
  | lo, hi, k :: ks, c :: cs => WF lo (some k) c ∧ WFChn (some k) hi ks cs
  | _, _, _ :: _, [] => False

end

mutual

/-- The order invariant exactly as claimed (strict on the left): for
every internal node and every index `i`, all keys in the subtree
`children[i]` are `< keys[i]` and all keys in `children[i+1]` are
`≥ keys[i]`. Checked by full traversal. -/
def orderStrictOk : btree_node → Bool
  | .mk is_leaf keys children =>
    (is_leaf ||
      (List.range keys.length).all fun i =>
        ((allKeys (children.getD i default)).all fun k => decide (k < keys.getD i 0)) &&
          ((allKeys (children.getD (i + 1) default)).all fun k =>
            decide (keys.getD i 0 ≤ k))) &&
      orderStrictOkL children

/-- `orderStrictOk` over a list of children. -/
def orderStrictOkL : List btree_node → Bool
  | [] => true
  | c :: cs => orderStrictOk c && orderStrictOkL cs

end

mutual

/-- The order invariant with the left comparison weakened to `≤`: for
every internal node and every index `i`, all keys in `children[i]` are
`≤ keys[i]` and all keys in `children[i+1]` are `≥ keys[i]`. -/
def orderWeakOk : btree_node → Bool
  | .mk is_leaf keys children =>
    (is_leaf ||
      (List.range keys.length).all fun i =>
        ((allKeys (children.getD i default)).all fun k => decide (k ≤ keys.getD i 0)) &&
          ((allKeys (children.getD (i + 1) default)).all fun k =>
            decide (keys.getD i 0 ≤ k))) &&
      orderWeakOkL children

/-- `orderWeakOk` over a list of children. -/
def orderWeakOkL : List btree_node → Bool
  | [] => true
  | c :: cs => orderWeakOk c && orderWeakOkL cs

end

mutual

/-- The occupancy invariant, checked by traversal: every node has at
most `BTREE_MAX_KEYS` keys, and every node except the root (the only
node visited with `isRoot = true`) has at least one key. -/
def occOk : Bool → btree_node → Bool
  | isRoot, .mk _ keys children =>
    (decide (keys.length ≤ BTREE_MAX_KEYS) && (isRoot || decide (1 ≤ keys.length))) &&
      occOkL children

/-- `occOk` over a list of (non-root) children. -/
def occOkL : List btree_node → Bool
  | [] => true
  | c :: cs => occOk false c && occOkL cs

end

/-! ## Basic list helpers -/

theorem getD_cons_drop {α : Type} (d : α) :
    ∀ (l : List α) (i : Nat), i < l.length → l.getD i d :: l.drop (i + 1) = l.drop i := by
  intro l
  induction l with
  | nil => intro i h; simp at h
  | cons a l ih =>
    intro i h
    cases i with
    | zero => simp
    | succ j =>
      simp only [List.getD_cons_succ, List.drop_succ_cons]
      exact ih j (by simpa using h)

theorem mem_getD {α : Type} (d : α) (l : List α) (i : Nat) (h : i < l.length) :
    l.getD i d ∈ l := by
  rw [List.getD_eq_getElem l d h]
  exact List.getElem_mem h

theorem sorted_getD_le {l : List Nat} (hs : List.Sorted (· ≤ ·) l) {i j : Nat}
    (hij : i ≤ j) (hj : j < l.length) : l.getD i 0 ≤ l.getD j 0 := by
  rcases Nat.eq_or_lt_of_le hij with rfl | hlt
  · exact le_refl _
  · rw [List.getD_eq_getElem l 0 (lt_of_le_of_lt hij hj), List.getD_eq_getElem l 0 hj]
    exact hs.rel_get_of_lt hlt

theorem getD_take_of_lt {α : Type} (d : α) (l : List α) (i j : Nat) (h : j < i) :
    (l.take i).getD j d = l.getD j d := by
  by_cases hj : j < l.length
  · rw [List.getD_eq_getElem _ d (by simp only [List.length_take]; omega),
      List.getD_eq_getElem l d hj, List.getElem_take]
  · rw [List.getD_eq_default _ d (by simp only [List.length_take]; omega),
      List.getD_eq_default _ d (by omega)]

theorem getD_drop {α : Type} (d : α) (l : List α) (i j : Nat) :
    (l.drop i).getD j d = l.getD (i + j) d := by
  by_cases hj : i + j < l.length
  · rw [List.getD_eq_getElem _ d (by simp [List.length_drop]; omega),
      List.getD_eq_getElem l d hj, List.getElem_drop]
  · rw [List.getD_eq_default _ d (by simp [List.length_drop]; omega),
      List.getD_eq_default _ d (by omega)]

/-! ## Height lemmas -/

theorem height_pos (t : btree_node) : 1 ≤ height t := by
  match t with
  | .mk b ks cs => simp [height]

theorem le_heightL_of_mem {c : btree_node} {cs : List btree_node} (h : c ∈ cs) :
    height c ≤ heightL cs := by
  induction cs with
  | nil => simp at h
  | cons a l ih =>
    rcases List.mem_cons.1 h with rfl | h'
    · simp [heightL]
    · simp only [heightL]
      exact le_trans (ih h') (le_max_right _ _)

theorem height_lt_of_mem {c : btree_node} (b : Bool) (ks : List Nat)
    {cs : List btree_node} (h : c ∈ cs) : height c < height (.mk b ks cs) := by
  simp only [height]
  have := le_heightL_of_mem h
  omega

theorem heightL_le_of_forall {cs : List btree_node} {m : Nat}
    (h : ∀ c ∈ cs, height c ≤ m) : heightL cs ≤ m := by
  induction cs with
  | nil => simp [heightL]
  | cons a l ih =>
    simp only [heightL, max_le_iff]
    exact ⟨h a (by simp), ih fun c hc => h c (List.mem_cons_of_mem _ hc)⟩

theorem heightL_sublist_le {cs' cs : List btree_node} (h : cs' ⊆ cs) :
    heightL cs' ≤ heightL cs :=
  heightL_le_of_forall fun _ hc => le_heightL_of_mem (h hc)

/-! ## Key-multiset lemmas -/

theorem keysM_mk (b : Bool) (ks : List Nat) (cs : List btree_node) :
    keysM (.mk b ks cs) = (ks : Multiset Nat) + keysML cs := by
  simp [keysM, keysML, allKeys, Multiset.coe_add]

theorem keysML_nil : keysML [] = 0 := rfl

theorem keysML_cons (c : btree_node) (cs : List btree_node) :
    keysML (c :: cs) = keysM c + keysML cs := by
  simp [keysM, keysML, allKeysL, Multiset.coe_add]

theorem keysML_append (l r : List btree_node) :
    keysML (l ++ r) = keysML l + keysML r := by
  induction l with
  | nil => simp [keysML_nil]
  | cons a l ih => simp [keysML_cons, ih, add_assoc]

theorem mem_keysML {a : Nat} {cs : List btree_node} :
    a ∈ keysML cs ↔ ∃ c ∈ cs, a ∈ keysM c := by
  induction cs with
  | nil => simp [keysML_nil]
  | cons c cs ih =>
    simp only [keysML_cons, Multiset.mem_add, ih, List.mem_cons]
    constructor
    · rintro (h | ⟨c', hc', h⟩)
      · exact ⟨c, Or.inl rfl, h⟩
      · exact ⟨c', Or.inr hc', h⟩
    · rintro ⟨c', (rfl | hc'), h⟩
      · exact Or.inl h
      · exact Or.inr ⟨c', hc', h⟩

theorem keysML_set {cs : List btree_node} {i : Nat} (c' : btree_node)
    (h : i < cs.length) :
    keysML (cs.set i c') + keysM (cs.getD i default) = keysML cs + keysM c' := by
  induction cs generalizing i with
  | nil => simp at h
  | cons a l ih =>
    cases i with
    | zero => simp only [List.set_cons_zero, keysML_cons, List.getD_cons_zero]; abel
    | succ j =>
      simp only [List.set_cons_succ, keysML_cons, List.getD_cons_succ]
      have := ih (i := j) (by simpa using h)
      calc keysM a + keysML (l.set j c') + keysM (l.getD j default)
          = keysM a + (keysML (l.set j c') + keysM (l.getD j default)) := by abel
        _ = keysM a + (keysML l + keysM c') := by rw [this]
        _ = keysM a + keysML l + keysM c' := by abel

/-! ## The slot-scan loop of `btree_insert_nonfull` -/

theorem findSlotAux_spec (key : Nat) (keys : List Nat) :
    ∀ m, findSlotAux key keys m ≤ m ∧
      (∀ j, findSlotAux key keys m ≤ j → j < m → key < keys.getD j 0) ∧
      (0 < findSlotAux key keys m → keys.getD (findSlotAux key keys m - 1) 0 ≤ key) := by
  intro m
  induction m with
  | zero => simp [findSlotAux]
  | succ n ih =>
    by_cases h : key < keys.getD n 0
    · have he : findSlotAux key keys (n + 1) = findSlotAux key keys n := by
        rw [findSlotAux, if_pos h]
      rw [he]
      refine ⟨by omega, ?_, ih.2.2⟩
      intro j h1 h2
      rcases Nat.lt_or_ge j n with hj | hj
      · exact ih.2.1 j h1 hj
      · have : j = n := by omega
        subst this; exact h
    · have he : findSlotAux key keys (n + 1) = n + 1 := by
        rw [findSlotAux, if_neg h]
      rw [he]
      refine ⟨le_refl _, ?_, ?_⟩
      · intro j h1 h2; omega
      · intro _
        simpa using Nat.le_of_not_lt h

theorem findSlot_le (key : Nat) (keys : List Nat) : findSlot key keys ≤ keys.length :=
  (findSlotAux_spec key keys keys.length).1

theorem findSlot_lt_keys (key : Nat) (keys : List Nat) {j : Nat}
    (h1 : findSlot key keys ≤ j) (h2 : j < keys.length) : key < keys.getD j 0 :=
  (findSlotAux_spec key keys keys.length).2.1 j h1 h2

theorem findSlot_ge_prev (key : Nat) (keys : List Nat)
    (h : 0 < findSlot key keys) : keys.getD (findSlot key keys - 1) 0 ≤ key :=
  (findSlotAux_spec key keys keys.length).2.2 h

/-! ## The key-scan loop of `btree_search` -/

theorem searchStep_none_mem {key : Nat} : ∀ {keys : List Nat},
    searchStep key keys = none → key ∈ keys := by
  intro keys
  induction keys with
  | nil => simp [searchStep]
  | cons k ks ih =>
    intro h
    simp only [searchStep] at h
    split at h
    · simp at h
    · split at h
      · simp_all
      · rcases Option.map_eq_none'.1 h with h'
        exact List.mem_cons_of_mem _ (ih h')

theorem searchStep_some_spec {key : Nat} : ∀ {keys : List Nat} {i : Nat},
    searchStep key keys = some i →
      i ≤ keys.length ∧ (∀ j < i, keys.getD j 0 < key) ∧
        (i < keys.length → key < keys.getD i 0) := by
  intro keys
  induction keys with
  | nil =>
    intro i h
    simp only [searchStep, Option.some.injEq] at h
    subst h
    simp
  | cons k ks ih =>
    intro i h
    simp only [searchStep] at h
    split at h
    · rename_i hlt
      obtain rfl : (0 : Nat) = i := by simpa using h
      exact ⟨Nat.zero_le _, by omega, fun _ => by simpa using hlt⟩
    · split at h
      · simp at h
      · rename_i hlt heq
        rcases Option.map_eq_some'.1 h with ⟨i', hi', rfl⟩
        obtain ⟨h1, h2, h3⟩ := ih hi'
        refine ⟨by simpa using h1, ?_, ?_⟩
        · intro j hj
          cases j with
          | zero =>
            simp only [List.getD_cons_zero]
            omega
          | succ j' => simpa using h2 j' (by omega)
        · intro hlen
          simpa using h3 (by simpa using hlen)

theorem searchStep_some_not_mem {key : Nat} {keys : List Nat} {i : Nat}
    (hs : List.Sorted (· ≤ ·) keys) (h : searchStep key keys = some i) :
    key ∉ keys := by
  obtain ⟨h1, h2, h3⟩ := searchStep_some_spec h
  intro hmem
  obtain ⟨m, hm, hget⟩ := List.getElem_of_mem hmem
  have hgd : keys.getD m 0 = key := by rw [List.getD_eq_getElem keys 0 hm]; exact hget
  rcases Nat.lt_or_ge m i with hmi | hmi
  · have := h2 m hmi
    omega
  · have hil : i < keys.length := lt_of_le_of_lt hmi hm
    have := h3 hil
    have := sorted_getD_le hs hmi hm
    omega

/-! ## Children-chain lemmas -/

/-- Lower bound of the key range routed to child `i` of an internal
node with keys `ks` under outer lower bound `lo`. -/
def chLb (lo : Option Nat) (ks : List Nat) (i : Nat) : Option Nat :=
  if i = 0 then lo else some (ks.getD (i - 1) 0)

/-- Upper bound of the key range routed to child `i` of an internal
node with keys `ks` under outer upper bound `hi`. -/
def chUb (hi : Option Nat) (ks : List Nat) (i : Nat) : Option Nat :=
  if i = ks.length then hi else some (ks.getD i 0)

theorem chn_length : ∀ {ks : List Nat} {cs : List btree_node} {lo hi : Option Nat},
    WFChn lo hi ks cs → cs.length = ks.length + 1 := by
  intro ks
  induction ks with
  | nil =>
    intro cs lo hi h
    match cs with
    | [] => simp [WFChn] at h
    | [c] => simp
    | _ :: _ :: _ => simp [WFChn] at h
  | cons k ks ih =>
    intro cs lo hi h
    match cs with
    | [] => simp [WFChn] at h
    | c :: cs =>
      rw [WFChn] at h
      simpa using ih h.2

theorem chn_getD_wf : ∀ {ks : List Nat} {cs : List btree_node} {lo hi : Option Nat}
    {i : Nat}, WFChn lo hi ks cs → i ≤ ks.length →
    WF (chLb lo ks i) (chUb hi ks i) (cs.getD i default) := by
  intro ks
  induction ks with
  | nil =>
    intro cs lo hi i h hle
    match cs with
    | [] => simp [WFChn] at h
    | [c] =>
      rw [WFChn] at h
      obtain rfl : i = 0 := Nat.le_zero.mp (by simpa using hle)
      simpa [chLb, chUb] using h
    | _ :: _ :: _ => simp [WFChn] at h
  | cons k ks ih =>
    intro cs lo hi i h hle
    match cs with
    | [] => simp [WFChn] at h
    | c :: cs =>
      rw [WFChn] at h
      cases i with
      | zero =>
        simpa [chLb, chUb] using h.1
      | succ j =>
        have := ih h.2 (by simpa using hle)
        simp only [List.getD_cons_succ]
        have hlb : chLb lo (k :: ks) (j + 1) = chLb (some k) ks j := by
          cases j with
          | zero => simp [chLb]
          | succ j' => simp [chLb]
        have hub : chUb hi (k :: ks) (j + 1) = chUb hi ks j := by
          by_cases hj : j = ks.length
          · simp [chUb, hj]
          · simp [chUb, hj]
        rw [hlb, hub]
        exact this

theorem chn_set : ∀ {ks : List Nat} {cs : List btree_node} {lo hi : Option Nat}
    {i : Nat} {c' : btree_node}, WFChn lo hi ks cs → i ≤ ks.length →
    WF (chLb lo ks i) (chUb hi ks i) c' → WFChn lo hi ks (cs.set i c') := by
  intro ks
  induction ks with
  | nil =>
    intro cs lo hi i c' h hle hwf
    match cs with
    | [] => simp [WFChn] at h
    | [c] =>
      obtain rfl : i = 0 := Nat.le_zero.mp (by simpa using hle)
      simp only [List.set_cons_zero]
      rw [WFChn]
      simpa [chLb, chUb] using hwf
    | _ :: _ :: _ => simp [WFChn] at h
  | cons k ks ih =>
    intro cs lo hi i c' h hle hwf
    match cs with
    | [] => simp [WFChn] at h
    | c :: cs =>
      rw [WFChn] at h
      cases i with
      | zero =>
        simp only [List.set_cons_zero]
        rw [WFChn]
        exact ⟨by simpa [chLb, chUb] using hwf, h.2⟩
      | succ j =>
        simp only [List.set_cons_succ]
        rw [WFChn]
        refine ⟨h.1, ih h.2 (by simpa using hle) ?_⟩
        have hlb : chLb lo (k :: ks) (j + 1) = chLb (some k) ks j := by
          cases j with
          | zero => simp [chLb]
          | succ j' => simp [chLb]
        have hub : chUb hi (k :: ks) (j + 1) = chUb hi ks j := by
          by_cases hj : j = ks.length
          · simp [chUb, hj]
          · simp [chUb, hj]
        rw [hlb, hub] at hwf
        exact hwf

theorem chn_split_insert : ∀ {ks : List Nat} {cs : List btree_node}
    {lo hi : Option Nat} {i : Nat} {m : Nat} {l r : btree_node},
    WFChn lo hi ks cs → i ≤ ks.length →
    WF (chLb lo ks i) (some m) l → WF (some m) (chUb hi ks i) r →
    WFChn lo hi (ks.take i ++ m :: ks.drop i)
      (cs.take i ++ l :: r :: cs.drop (i + 1)) := by
  intro ks
  induction ks with
  | nil =>
    intro cs lo hi i m l r h hle hl hr
    match cs with
    | [] => simp [WFChn] at h
    | [c] =>
      obtain rfl : i = 0 := Nat.le_zero.mp (by simpa using hle)
      simp only [List.take_nil, List.nil_append, List.drop_nil, List.take_zero,
        List.drop_succ_cons]
      rw [WFChn]
      refine ⟨by simpa [chLb] using hl, ?_⟩
      rw [WFChn]
      simpa [chUb] using hr
    | _ :: _ :: _ => simp [WFChn] at h
  | cons k ks ih =>
    intro cs lo hi i m l r h hle hl hr
    match cs with
    | [] => simp [WFChn] at h
    | c :: cs =>
      rw [WFChn] at h
      cases i with
      | zero =>
        simp only [List.take_zero, List.nil_append, List.drop_zero,
          List.drop_succ_cons]
        rw [WFChn]
        refine ⟨by simpa [chLb] using hl, ?_⟩
        rw [WFChn]
        refine ⟨by simpa [chUb] using hr, h.2⟩
      | succ j =>
        simp only [List.take_succ_cons, List.drop_succ_cons, List.cons_append]
        rw [WFChn]
        refine ⟨h.1, ?_⟩
        have hlb : chLb lo (k :: ks) (j + 1) = chLb (some k) ks j := by
          cases j with
          | zero => simp [chLb]
          | succ j' => simp [chLb]
        have hub : chUb hi (k :: ks) (j + 1) = chUb hi ks j := by
          by_cases hj : j = ks.length
          · simp [chUb, hj]
          · simp [chUb, hj]
        exact ih h.2 (by simpa using hle) (hlb ▸ hl) (hub ▸ hr)

theorem lbOk_trans {lo : Option Nat} {a b : Nat} (h : lbOk lo a) (hab : a ≤ b) :
    lbOk lo b := by
  cases lo with
  | none => trivial
  | some l => exact le_trans h hab

theorem ubOk_trans {hi : Option Nat} {a b : Nat} (h : ubOk hi a) (hab : b ≤ a) :
    ubOk hi b := by
  cases hi with
  | none => trivial
  | some u => exact le_trans hab h

theorem chLb_weaken {lo : Option Nat} {ks : List Nat} {j k : Nat}
    (hks : ∀ k' ∈ ks, lbOk lo k') (hj : j ≤ ks.length)
    (h : lbOk (chLb lo ks j) k) : lbOk lo k := by
  by_cases h0 : j = 0
  · subst h0; simpa [chLb] using h
  · rw [chLb, if_neg h0] at h
    exact lbOk_trans (hks _ (mem_getD 0 ks (j - 1) (by omega))) h

theorem chUb_weaken {hi : Option Nat} {ks : List Nat} {j k : Nat}
    (hks : ∀ k' ∈ ks, ubOk hi k') (hj : j ≤ ks.length)
    (h : ubOk (chUb hi ks j) k) : ubOk hi k := by
  by_cases hlen : j = ks.length
  · subst hlen; simpa [chUb] using h
  · rw [chUb, if_neg hlen] at h
    exact ubOk_trans (hks _ (mem_getD 0 ks j (by omega))) h

theorem chn_take : ∀ {ks : List Nat} {cs : List btree_node} {lo hi : Option Nat}
    {m : Nat}, WFChn lo hi ks cs → m < ks.length →
    WFChn lo (some (ks.getD m 0)) (ks.take m) (cs.take (m + 1)) := by
  intro ks
  induction ks with
  | nil => intro cs lo hi m _ hm; simp at hm
  | cons k ks ih =>
    intro cs lo hi m h hm
    match cs with
    | [] => simp [WFChn] at h
    | c :: cs =>
      rw [WFChn] at h
      cases m with
      | zero =>
        simp only [List.take_zero, List.take_succ_cons, List.getD_cons_zero]
        rw [WFChn]
        exact h.1
      | succ j =>
        simp only [List.take_succ_cons, List.getD_cons_succ]
        rw [WFChn]
        exact ⟨h.1, ih h.2 (by simpa using hm)⟩

theorem chn_drop : ∀ {ks : List Nat} {cs : List btree_node} {lo hi : Option Nat}
    {m : Nat}, WFChn lo hi ks cs → m < ks.length →
    WFChn (some (ks.getD m 0)) hi (ks.drop (m + 1)) (cs.drop (m + 1)) := by
  intro ks
  induction ks with
  | nil => intro cs lo hi m _ hm; simp at hm
  | cons k ks ih =>
    intro cs lo hi m h hm
    match cs with
    | [] => simp [WFChn] at h
    | c :: cs =>
      rw [WFChn] at h
      cases m with
      | zero =>
        simpa using h.2
      | succ j =>
        simp only [List.drop_succ_cons, List.getD_cons_succ]
        exact ih h.2 (by simpa using hm)

/-! ## Sorted insertion -/

theorem sorted_insert_at : ∀ {ks : List Nat} {i m : Nat},
    List.Sorted (· ≤ ·) ks → i ≤ ks.length →
    (0 < i → ks.getD (i - 1) 0 ≤ m) → (i < ks.length → m ≤ ks.getD i 0) →
    List.Sorted (· ≤ ·) (ks.take i ++ m :: ks.drop i) := by
  intro ks
  induction ks with
  | nil =>
    intro i m _ hle _ _
    obtain rfl : i = 0 := Nat.le_zero.mp (by simpa using hle)
    simp
  | cons k ks ih =>
    intro i m hs hle hlo hhi
    rw [List.sorted_cons] at hs
    cases i with
    | zero =>
      simp only [List.take_zero, List.nil_append, List.drop_zero, List.sorted_cons]
      have hmk : m ≤ k := by simpa using hhi (by simp)
      refine ⟨?_, hs⟩
      intro b hb
      rcases List.mem_cons.1 hb with rfl | hb'
      · exact hmk
      · exact le_trans hmk (hs.1 b hb')
    | succ j =>
      simp only [List.take_succ_cons, List.cons_append, List.drop_succ_cons,
        List.sorted_cons]
      have hj : j ≤ ks.length := by simpa using hle
      have hlo' : 0 < j → ks.getD (j - 1) 0 ≤ m := by
        intro hjpos
        have := hlo (by omega)
        simpa [Nat.succ_sub_one, List.getD_cons_succ,
          show j + 1 - 1 = j - 1 + 1 by omega] using this
      have hhi' : j < ks.length → m ≤ ks.getD j 0 := by
        intro hjlt
        simpa using hhi (by simpa using hjlt)
      refine ⟨?_, ih hs.2 hj hlo' hhi'⟩
      intro b hb
      have hkm : k ≤ m := by
        by_cases hj0 : j = 0
        · subst hj0; simpa using hlo (by omega)
        · have hj1 : j - 1 < ks.length := by omega
          have : ks.getD (j - 1) 0 ∈ ks := mem_getD 0 ks (j - 1) hj1
          exact le_trans (hs.1 _ this) (hlo' (by omega))
      rcases List.mem_append.1 hb with hb' | hb'
      · exact hs.1 b (List.take_subset _ _ hb')
      · rcases List.mem_cons.1 hb' with rfl | hb''
        · exact hkm
        · exact hs.1 b (List.drop_subset _ _ hb'')

/-! ## Split lemmas -/

theorem btree_split_child_eq {pleaf : Bool} {pkeys : List Nat}
    {pchildren : List btree_node} {index : Nat} {cleaf : Bool} {ckeys : List Nat}
    {cchildren : List btree_node}
    (hchild : pchildren.getD index default = .mk cleaf ckeys cchildren) :
    btree_split_child (.mk pleaf pkeys pchildren) index =
      .mk pleaf (pkeys.take index ++ ckeys.getD 1 0 :: pkeys.drop index)
        (pchildren.take index ++
          .mk cleaf (ckeys.take 1) (if cleaf then cchildren else cchildren.take 2) ::
          .mk cleaf ((ckeys.drop 2).take 1)
            (if cleaf then [] else (cchildren.drop 2).take 2) ::
          pchildren.drop (index + 1)) := by
  rw [btree_split_child, hchild]
  rfl

theorem split_pieces_wf (lo hi : Option Nat) {cleaf : Bool} {ckeys : List Nat}
    {cchildren : List btree_node}
    (hwf : WF lo hi (.mk cleaf ckeys cchildren))
    (hfull : ckeys.length = BTREE_MAX_KEYS) :
    WF lo (some (ckeys.getD 1 0))
      (.mk cleaf (ckeys.take 1) (if cleaf then cchildren else cchildren.take 2)) ∧
    WF (some (ckeys.getD 1 0)) hi
      (.mk cleaf ((ckeys.drop 2).take 1)
        (if cleaf then [] else (cchildren.drop 2).take 2)) := by
  rw [show BTREE_MAX_KEYS = 3 from rfl] at hfull
  obtain ⟨a, b, c, rfl⟩ := List.length_eq_three.1 hfull
  cases cleaf with
  | true =>
    rw [WF] at hwf
    obtain ⟨hnil, hs, -, hb⟩ := hwf
    subst hnil
    rw [List.sorted_cons_cons] at hs
    constructor
    · rw [if_pos rfl, WF]
      refine ⟨rfl, by simp, by simp [BTREE_MAX_KEYS, BTREE_ORDER], ?_⟩
      intro x hx
      obtain rfl : x = a := by simpa using hx
      exact ⟨(hb x (by simp)).1, by simpa [ubOk] using hs.1⟩
    · rw [if_pos rfl, WF]
      refine ⟨rfl, by simp, by simp [BTREE_MAX_KEYS, BTREE_ORDER], ?_⟩
      intro x hx
      obtain rfl : x = c := by simpa using hx
      rw [List.sorted_cons] at hs
      exact ⟨by simpa [lbOk] using hs.2.1 x (by simp), (hb x (by simp)).2⟩
  | false =>
    rw [WF] at hwf
    obtain ⟨-, hs, -, hb, hocc, hchn⟩ := hwf
    have hlen : cchildren.length = 4 := by simpa using chn_length hchn
    rw [List.sorted_cons_cons] at hs
    constructor
    · rw [if_neg (by simp), WF]
      refine ⟨by simp, by simp, by simp [BTREE_MAX_KEYS, BTREE_ORDER], ?_, ?_, ?_⟩
      · intro x hx
        obtain rfl : x = a := by simpa using hx
        exact ⟨(hb x (by simp)).1, by simpa [ubOk] using hs.1⟩
      · intro c' hc'
        exact hocc c' (List.take_subset _ _ hc')
      · have := chn_take (m := 1) hchn (by simp)
        simpa using this
    · rw [if_neg (by simp), WF]
      refine ⟨by simp, by simp, by simp [BTREE_MAX_KEYS, BTREE_ORDER], ?_, ?_, ?_⟩
      · intro x hx
        obtain rfl : x = c := by simpa using hx
        rw [List.sorted_cons] at hs
        exact ⟨by simpa [lbOk] using hs.2.1 x (by simp), (hb x (by simp)).2⟩
      · intro c' hc'
        exact hocc c' (List.drop_subset _ _ (List.take_subset _ _ hc'))
      · have h2 : (cchildren.drop 2).take 2 = cchildren.drop 2 :=
          List.take_of_length_le (by simp [hlen])
        rw [h2]
        have := chn_drop (m := 1) hchn (by simp)
        simpa using this

theorem split_pieces_height (cleaf : Bool) (ckeys : List Nat)
    (cchildren : List btree_node) :
    height (btree_node.mk cleaf (ckeys.take 1)
        (if cleaf then cchildren else cchildren.take 2)) ≤
      height (.mk cleaf ckeys cchildren) ∧
    height (btree_node.mk cleaf ((ckeys.drop 2).take 1)
        (if cleaf then [] else (cchildren.drop 2).take 2)) ≤
      height (.mk cleaf ckeys cchildren) := by
  constructor
  · simp only [height]
    have hsub : (if cleaf then cchildren else cchildren.take 2) ⊆ cchildren := by
      split
      · exact fun x hx => hx
      · exact List.take_subset _ _
    have := heightL_sublist_le hsub
    omega
  · simp only [height]
    have hsub : (if cleaf then [] else (cchildren.drop 2).take 2) ⊆ cchildren := by
      split
      · simp
      · exact fun x hx => List.drop_subset _ _ (List.take_subset _ _ hx)
    have := heightL_sublist_le hsub
    omega

theorem split_pieces_keysM {lo hi : Option Nat} {cleaf : Bool} {ckeys : List Nat}
    {cchildren : List btree_node}
    (hwf : WF lo hi (.mk cleaf ckeys cchildren))
    (hfull : ckeys.length = BTREE_MAX_KEYS) :
    keysM (btree_node.mk cleaf (ckeys.take 1)
        (if cleaf then cchildren else cchildren.take 2)) +
      ((ckeys.getD 1 0) ::ₘ
        keysM (btree_node.mk cleaf ((ckeys.drop 2).take 1)
          (if cleaf then [] else (cchildren.drop 2).take 2))) =
      keysM (.mk cleaf ckeys cchildren) := by
  rw [show BTREE_MAX_KEYS = 3 from rfl] at hfull
  obtain ⟨a, b, c, rfl⟩ := List.length_eq_three.1 hfull
  cases cleaf with
  | true =>
    rw [WF] at hwf
    obtain ⟨hnil, -, -, -⟩ := hwf
    subst hnil
    rw [if_pos rfl, if_pos rfl, keysM_mk, keysM_mk, keysM_mk]
    simp only [keysML_nil, add_zero,
      show List.take 1 [a, b, c] = [a] from rfl,
      show (List.drop 2 [a, b, c]).take 1 = [c] from rfl,
      show [a, b, c].getD 1 0 = b from rfl]
    simp only [← Multiset.cons_coe, Multiset.coe_nil]
    rfl
  | false =>
    rw [WF] at hwf
    obtain ⟨-, -, -, -, -, hchn⟩ := hwf
    have hlen : cchildren.length = 4 := by simpa using chn_length hchn
    have h2 : (cchildren.drop 2).take 2 = cchildren.drop 2 :=
      List.take_of_length_le (by simp [hlen])
    rw [if_neg (by simp), if_neg (by simp), h2, keysM_mk, keysM_mk, keysM_mk,
      show keysML cchildren = keysML (cchildren.take 2) + keysML (cchildren.drop 2) by
        rw [← keysML_append, List.take_append_drop]]
    simp only [show List.take 1 [a, b, c] = [a] from rfl,
      show (List.drop 2 [a, b, c]).take 1 = [c] from rfl,
      show [a, b, c].getD 1 0 = b from rfl]
    simp only [← Multiset.cons_coe, Multiset.coe_nil, ← Multiset.singleton_add]
    abel

/-! ## Insertion-surgery list helpers -/

theorem ins_length {α : Type} (l : List α) (x : α) (i : Nat) (h : i ≤ l.length) :
    (l.take i ++ x :: l.drop i).length = l.length + 1 := by
  simp only [List.length_append, List.length_take, List.length_cons, List.length_drop]
  omega

theorem ins_getD_lt {α : Type} (d : α) (l : List α) (x : α) (i j : Nat) (h : j < i)
    (hi : i ≤ l.length) :
    (l.take i ++ x :: l.drop i).getD j d = l.getD j d := by
  rw [List.getD_append _ _ _ _ (by simp only [List.length_take]; omega),
    getD_take_of_lt _ _ _ _ h]

theorem ins_getD_self {α : Type} (d : α) (l : List α) (x : α) (i : Nat)
    (h : i ≤ l.length) :
    (l.take i ++ x :: l.drop i).getD i d = x := by
  rw [List.getD_append_right _ _ _ _ (by simp only [List.length_take]; omega)]
  simp [List.length_take, Nat.min_eq_left h]

theorem ins_getD_gt {α : Type} (d : α) (l : List α) (x : α) (i j : Nat)
    (hij : i ≤ j) (h : i ≤ l.length) :
    (l.take i ++ x :: l.drop i).getD (j + 1) d = l.getD j d := by
  rw [List.getD_append_right _ _ _ _ (by simp only [List.length_take]; omega)]
  have : j + 1 - (l.take i).length = (j - i) + 1 := by
    simp [List.length_take]; omega
  rw [this, List.getD_cons_succ, getD_drop]
  congr 1
  omega

theorem mem_ins {α : Type} {l : List α} {x y : α} {i : Nat}
    (h : y ∈ l.take i ++ x :: l.drop i) : y ∈ l ∨ y = x := by
  rcases List.mem_append.1 h with h' | h'
  · exact Or.inl (List.take_subset _ _ h')
  · rcases List.mem_cons.1 h' with rfl | h''
    · exact Or.inr rfl
    · exact Or.inl (List.drop_subset _ _ h'')

theorem spl_getD_self {α : Type} (d : α) (l : List α) (x y : α) (i : Nat)
    (h : i < l.length) :
    (l.take i ++ x :: y :: l.drop (i + 1)).getD i d = x := by
  rw [List.getD_append_right _ _ _ _ (by simp only [List.length_take]; omega)]
  simp [List.length_take, Nat.min_eq_left (le_of_lt h)]

theorem spl_getD_succ {α : Type} (d : α) (l : List α) (x y : α) (i : Nat)
    (h : i < l.length) :
    (l.take i ++ x :: y :: l.drop (i + 1)).getD (i + 1) d = y := by
  rw [List.getD_append_right _ _ _ _ (by simp only [List.length_take]; omega)]
  have : i + 1 - (l.take i).length = 1 := by simp [List.length_take]; omega
  rw [this]
  rfl

theorem spl_length {α : Type} (l : List α) (x y : α) (i : Nat) (h : i < l.length) :
    (l.take i ++ x :: y :: l.drop (i + 1)).length = l.length + 1 := by
  simp only [List.length_append, List.length_take, List.length_cons, List.length_drop]
  omega

theorem mem_spl {α : Type} {l : List α} {x y z : α} {i : Nat}
    (h : z ∈ l.take i ++ x :: y :: l.drop (i + 1)) : z ∈ l ∨ z = x ∨ z = y := by
  rcases List.mem_append.1 h with h' | h'
  · exact Or.inl (List.take_subset _ _ h')
  · rcases List.mem_cons.1 h' with rfl | h''
    · exact Or.inr (Or.inl rfl)
    · rcases List.mem_cons.1 h'' with rfl | h'''
      · exact Or.inr (Or.inr rfl)
      · exact Or.inl (List.drop_subset _ _ h''')

theorem coe_ins_eq_cons {l : List Nat} {x : Nat} {i : Nat} :
    ((l.take i ++ x :: l.drop i : List Nat) : Multiset Nat) = x ::ₘ (l : Multiset Nat) := by
  rw [Multiset.cons_coe, Multiset.coe_eq_coe]
  exact (List.perm_cons_append_cons x (by rw [List.take_append_drop])).symm

theorem keysML_spl {cs : List btree_node} {l r : btree_node} {i : Nat}
    (h : i < cs.length) :
    keysML (cs.take i ++ l :: r :: cs.drop (i + 1)) + keysM (cs.getD i default) =
      keysML cs + (keysM l + keysM r) := by
  have hdec : cs.take i ++ cs.getD i default :: cs.drop (i + 1) = cs := by
    rw [getD_cons_drop _ _ _ h, List.take_append_drop]
  conv_rhs => rw [← hdec]
  rw [keysML_append, keysML_append, keysML_cons, keysML_cons, keysML_cons]
  abel

/-! ## WF destructuring helpers -/

theorem wf_keys_sorted {lo hi : Option Nat} {t : btree_node} (h : WF lo hi t) :
    List.Sorted (· ≤ ·) t.keys := by
  match t with
  | .mk true ks cs => rw [WF] at h; exact h.2.1
  | .mk false ks cs => rw [WF] at h; exact h.2.1

theorem wf_keys_bounds {lo hi : Option Nat} {t : btree_node} (h : WF lo hi t) :
    ∀ k ∈ t.keys, lbOk lo k ∧ ubOk hi k := by
  match t with
  | .mk true ks cs => rw [WF] at h; exact h.2.2.2
  | .mk false ks cs => rw [WF] at h; exact h.2.2.2.1

theorem wf_keys_len {lo hi : Option Nat} {t : btree_node} (h : WF lo hi t) :
    t.keys.length ≤ BTREE_MAX_KEYS := by
  match t with
  | .mk true ks cs => rw [WF] at h; exact h.2.2.1
  | .mk false ks cs => rw [WF] at h; exact h.2.2.1

theorem split_preserves_keysM (pleaf : Bool) (keys : List Nat)
    {children : List btree_node} {i : Nat} {lo' hi' : Option Nat} {cleaf : Bool}
    {ckeys : List Nat} {cchildren : List btree_node}
    (hcd : children.getD i default = .mk cleaf ckeys cchildren)
    (hwf_c : WF lo' hi' (.mk cleaf ckeys cchildren))
    (hfull : ckeys.length = BTREE_MAX_KEYS)
    (hilen : i < children.length) :
    keysM (btree_split_child (.mk pleaf keys children) i) =
      keysM (.mk pleaf keys children) := by
  rw [btree_split_child_eq hcd, keysM_mk, keysM_mk, coe_ins_eq_cons]
  have h1 := keysML_spl
    (l := btree_node.mk cleaf (ckeys.take 1)
      (if cleaf then cchildren else cchildren.take 2))
    (r := btree_node.mk cleaf ((ckeys.drop 2).take 1)
      (if cleaf then [] else (cchildren.drop 2).take 2)) hilen
  rw [hcd] at h1
  have h2 := split_pieces_keysM hwf_c hfull
  simp only [← Multiset.singleton_add] at h2 ⊢
  refine add_right_cancel (b := keysM (btree_node.mk cleaf ckeys cchildren)) ?_
  rw [add_assoc, h1, ← h2]
  abel

theorem btree_node.exists_mk (t : btree_node) :
    ∃ a b c, t = btree_node.mk a b c := by
  cases t
  exact ⟨_, _, _, rfl⟩

/-- Replacing child `j` of a well-formed internal node by a well-formed
node holding one extra copy of `key` preserves well-formedness and adds
`key` to the key multiset. -/
theorem set_child_spec {lo hi : Option Nat} {ks : List Nat}
    {cs : List btree_node} {j key : Nat} {c' : btree_node}
    (hwf : WF lo hi (.mk false ks cs)) (hj : j ≤ ks.length)
    (hrwf : WF (chLb lo ks j) (chUb hi ks j) c')
    (hrkm : keysM c' = key ::ₘ keysM (cs.getD j default))
    (hrn : 1 ≤ c'.num_keys) :
    WF lo hi (.mk false ks (cs.set j c')) ∧
      keysM (.mk false ks (cs.set j c')) = key ::ₘ keysM (.mk false ks cs) := by
  rw [WF] at hwf
  obtain ⟨hne, hs, hlen, hb, hocc, hchn⟩ := hwf
  have hjlen : j < cs.length := by
    have := chn_length hchn
    omega
  constructor
  · rw [WF]
    refine ⟨hne, hs, hlen, hb, ?_, chn_set hchn hj hrwf⟩
    intro x hx
    rcases List.mem_or_eq_of_mem_set hx with hold | rfl
    · exact hocc x hold
    · exact hrn
  · rw [keysM_mk, keysM_mk]
    have h1 := keysML_set c' hjlen
    rw [hrkm] at h1
    simp only [← Multiset.singleton_add] at h1 ⊢
    refine add_right_cancel (b := keysM (cs.getD j default)) ?_
    rw [add_assoc, h1]
    abel

/-- Master lemma for `btree_insert_nonfull`: on a well-formed non-full
node, with enough fuel, insertion preserves well-formedness within the
same bounds, adds exactly one copy of the key to the key multiset, and
increases the node's key count by at most one. -/
theorem insert_nonfull_spec : ∀ (fuel : Nat) (t : btree_node) (key : Nat)
    (lo hi : Option Nat), height t ≤ fuel → WF lo hi t →
    t.num_keys < BTREE_MAX_KEYS → lbOk lo key → ubOk hi key →
    WF lo hi (btree_insert_nonfull fuel t key) ∧
    keysM (btree_insert_nonfull fuel t key) = key ::ₘ keysM t ∧
    t.num_keys ≤ (btree_insert_nonfull fuel t key).num_keys ∧
    (btree_insert_nonfull fuel t key).num_keys ≤ t.num_keys + 1 := by
  intro fuel
  induction fuel with
  | zero =>
    intro t key lo hi hh
    have := height_pos t
    omega
  | succ fuel ih =>
    intro t key lo hi hh hwf hlt hlb hub
    obtain ⟨tleaf, keys, children, rfl⟩ := btree_node.exists_mk t
    simp only [btree_node.num_keys, btree_node.keys] at hlt
    cases tleaf with
    | true =>
      rw [WF] at hwf
      obtain ⟨hcn, hs, hlen, hb⟩ := hwf
      subst hcn
      have hile : findSlot key keys ≤ keys.length := findSlot_le key keys
      simp only [btree_insert_nonfull, leafInsert]
      refine ⟨?_, ?_, ?_, ?_⟩
      · rw [WF]
        refine ⟨rfl, ?_, ?_, ?_⟩
        · exact sorted_insert_at hs hile (fun hpos => findSlot_ge_prev key keys hpos)
            (fun hlt' => le_of_lt (findSlot_lt_keys key keys (le_refl _) hlt'))
        · rw [ins_length keys key _ hile]
          omega
        · intro x hx
          rcases mem_ins hx with hold | rfl
          · exact hb x hold
          · exact ⟨hlb, hub⟩
      · rw [keysM_mk, keysM_mk, coe_ins_eq_cons]
        simp only [keysML_nil, add_zero]
      · simp only [btree_node.num_keys, btree_node.keys]
        rw [ins_length keys key _ hile]
        omega
      · simp only [btree_node.num_keys, btree_node.keys]
        rw [ins_length keys key _ hile]
    | false =>
      have hwf0 := hwf
      rw [WF] at hwf
      obtain ⟨hne, hs, hlen, hb, hocc, hchn⟩ := hwf
      have hclen : children.length = keys.length + 1 := chn_length hchn
      have hile : findSlot key keys ≤ keys.length := findSlot_le key keys
      have hilt : findSlot key keys < children.length := by omega
      have hwfc : WF (chLb lo keys (findSlot key keys))
          (chUb hi keys (findSlot key keys))
          (children.getD (findSlot key keys) default) := chn_getD_wf hchn hile
      have hlbk : lbOk (chLb lo keys (findSlot key keys)) key := by
        rw [chLb]
        split
        · exact hlb
        · rename_i h0
          simp only [lbOk]
          exact findSlot_ge_prev key keys (by omega)
      have hubk : ubOk (chUb hi keys (findSlot key keys)) key := by
        rw [chUb]
        split
        · exact hub
        · rename_i h0
          simp only [ubOk]
          exact le_of_lt (findSlot_lt_keys key keys (le_refl _) (by omega))
      have hchmem : children.getD (findSlot key keys) default ∈ children :=
        mem_getD default children _ hilt
      have hchh : height (children.getD (findSlot key keys) default) ≤ fuel := by
        have h1 := height_lt_of_mem false keys hchmem
        have h2 : height (btree_node.mk false keys children) ≤ fuel + 1 := hh
        omega
      simp only [btree_insert_nonfull]
      by_cases hfull :
          (children.getD (findSlot key keys) default).num_keys = BTREE_MAX_KEYS
      · rw [if_pos hfull]
        obtain ⟨cleaf, ckeys, cchildren, hcd⟩ :=
          btree_node.exists_mk (children.getD (findSlot key keys) default)
        rw [hcd] at hwfc hchh
        have hfull' : ckeys.length = BTREE_MAX_KEYS := by
          rw [hcd] at hfull
          simpa [btree_node.num_keys, btree_node.keys] using hfull
        rw [btree_split_child_eq hcd]
        dsimp only
        have hLR := split_pieces_wf _ _ hwfc hfull'
        have hLRh := split_pieces_height cleaf ckeys cchildren
        have hm_mem : ckeys.getD 1 0 ∈ ckeys := by
          refine mem_getD 0 ckeys 1 ?_
          rw [hfull']
          decide
        have hmb := wf_keys_bounds hwfc (ckeys.getD 1 0)
          (by simpa [btree_node.keys] using hm_mem)
        have hKlen : (keys.take (findSlot key keys) ++
            ckeys.getD 1 0 :: keys.drop (findSlot key keys)).length =
            keys.length + 1 := ins_length keys _ _ hile
        have hSgd : (keys.take (findSlot key keys) ++
            ckeys.getD 1 0 :: keys.drop (findSlot key keys)).getD
            (findSlot key keys) 0 = ckeys.getD 1 0 :=
          ins_getD_self 0 keys _ _ hile
        have hs' : List.Sorted (· ≤ ·) (keys.take (findSlot key keys) ++
            ckeys.getD 1 0 :: keys.drop (findSlot key keys)) := by
          refine sorted_insert_at hs hile ?_ ?_
          · intro hpos
            have := hmb.1
            rw [chLb, if_neg (by omega)] at this
            exact this
          · intro hlt'
            have := hmb.2
            rw [chUb, if_neg (by omega)] at this
            exact this
        have hbounds' : ∀ x ∈ keys.take (findSlot key keys) ++
            ckeys.getD 1 0 :: keys.drop (findSlot key keys),
            lbOk lo x ∧ ubOk hi x := by
          intro x hx
          rcases mem_ins hx with hold | rfl
          · exact hb x hold
          · exact ⟨chLb_weaken (fun k hk => (hb k hk).1) hile hmb.1,
              chUb_weaken (fun k hk => (hb k hk).2) hile hmb.2⟩
        have hwfn' : WF lo hi (btree_node.mk false
            (keys.take (findSlot key keys) ++
              ckeys.getD 1 0 :: keys.drop (findSlot key keys))
            (children.take (findSlot key keys) ++
              btree_node.mk cleaf (ckeys.take 1)
                (if cleaf then cchildren else cchildren.take 2) ::
              btree_node.mk cleaf ((ckeys.drop 2).take 1)
                (if cleaf then [] else (cchildren.drop 2).take 2) ::
              children.drop (findSlot key keys + 1))) := by
          rw [WF]
          refine ⟨by simp, hs', by rw [hKlen]; omega, hbounds', ?_,
            chn_split_insert hchn hile hLR.1 hLR.2⟩
          intro x hx
          rcases mem_spl hx with hold | rfl | rfl
          · exact hocc x hold
          · simp only [btree_node.num_keys, btree_node.keys, List.length_take, hfull']
            decide
          · simp only [btree_node.num_keys, btree_node.keys, List.length_take,
              List.length_drop, hfull']
            decide
        have hkmn' : keysM (btree_node.mk false
            (keys.take (findSlot key keys) ++
              ckeys.getD 1 0 :: keys.drop (findSlot key keys))
            (children.take (findSlot key keys) ++
              btree_node.mk cleaf (ckeys.take 1)
                (if cleaf then cchildren else cchildren.take 2) ::
              btree_node.mk cleaf ((ckeys.drop 2).take 1)
                (if cleaf then [] else (cchildren.drop 2).take 2) ::
              children.drop (findSlot key keys + 1))) =
            keysM (btree_node.mk false keys children) := by
          have h1 := split_preserves_keysM false keys hcd hwfc hfull' hilt
          rw [btree_split_child_eq hcd] at h1
          exact h1
        have hCHlen : (children.take (findSlot key keys) ++
            btree_node.mk cleaf (ckeys.take 1)
              (if cleaf then cchildren else cchildren.take 2) ::
            btree_node.mk cleaf ((ckeys.drop 2).take 1)
              (if cleaf then [] else (cchildren.drop 2).take 2) ::
            children.drop (findSlot key keys + 1)).length =
            children.length + 1 := spl_length _ _ _ _ hilt
        rw [hSgd, splitShift]
        by_cases hmk : ckeys.getD 1 0 < key
        · rw [if_pos hmk]
          have hgd : (children.take (findSlot key keys) ++
              btree_node.mk cleaf (ckeys.take 1)
                (if cleaf then cchildren else cchildren.take 2) ::
              btree_node.mk cleaf ((ckeys.drop 2).take 1)
                (if cleaf then [] else (cchildren.drop 2).take 2) ::
              children.drop (findSlot key keys + 1)).getD
              (findSlot key keys + 1) default =
              btree_node.mk cleaf ((ckeys.drop 2).take 1)
                (if cleaf then [] else (cchildren.drop 2).take 2) :=
            spl_getD_succ default children _ _ _ hilt
          rw [hgd]
          have hRn : (btree_node.mk cleaf ((ckeys.drop 2).take 1)
              (if cleaf then [] else (cchildren.drop 2).take 2)).num_keys = 1 := by
            simp only [btree_node.num_keys, btree_node.keys, List.length_take,
              List.length_drop, hfull']
            decide
          have hRh : height (btree_node.mk cleaf ((ckeys.drop 2).take 1)
              (if cleaf then [] else (cchildren.drop 2).take 2)) ≤ fuel :=
            le_trans hLRh.2 hchh
          have IH := ih (btree_node.mk cleaf ((ckeys.drop 2).take 1)
              (if cleaf then [] else (cchildren.drop 2).take 2)) key
            (some (ckeys.getD 1 0)) (chUb hi keys (findSlot key keys))
            hRh hLR.2 (by rw [hRn]; decide) (by simp only [lbOk]; omega) hubk
          have hlb' : chLb lo (keys.take (findSlot key keys) ++
              ckeys.getD 1 0 :: keys.drop (findSlot key keys))
              (findSlot key keys + 1) = some (ckeys.getD 1 0) := by
            rw [chLb, if_neg (by omega)]
            simp only [Nat.add_sub_cancel]
            rw [hSgd]
          have hub' : chUb hi (keys.take (findSlot key keys) ++
              ckeys.getD 1 0 :: keys.drop (findSlot key keys))
              (findSlot key keys + 1) = chUb hi keys (findSlot key keys) := by
            by_cases hend : findSlot key keys = keys.length
            · rw [chUb, if_pos (by rw [hKlen, hend]), chUb, if_pos hend]
            · rw [chUb, if_neg (by rw [hKlen]; omega), chUb, if_neg hend,
                ins_getD_gt 0 keys _ _ _ (le_refl _) hile]
          have IH1 := IH.1
          rw [← hlb'] at IH1
          rw [← hub'] at IH1
          have hocc1 := IH.2.2.1
          rw [hRn] at hocc1
          have hset := set_child_spec (j := findSlot key keys + 1) hwfn'
            (by rw [hKlen]; omega) IH1 (by rw [hgd]; exact IH.2.1) hocc1
          refine ⟨hset.1, ?_, ?_, ?_⟩
          · rw [hset.2, hkmn']
          · simp only [btree_node.num_keys, btree_node.keys]
            rw [hKlen]
            omega
          · simp only [btree_node.num_keys, btree_node.keys]
            rw [hKlen]
        · rw [if_neg hmk]
          have hgd : (children.take (findSlot key keys) ++
              btree_node.mk cleaf (ckeys.take 1)
                (if cleaf then cchildren else cchildren.take 2) ::
              btree_node.mk cleaf ((ckeys.drop 2).take 1)
                (if cleaf then [] else (cchildren.drop 2).take 2) ::
              children.drop (findSlot key keys + 1)).getD
              (findSlot key keys) default =
              btree_node.mk cleaf (ckeys.take 1)
                (if cleaf then cchildren else cchildren.take 2) :=
            spl_getD_self default children _ _ _ hilt
          rw [hgd]
          have hLn : (btree_node.mk cleaf (ckeys.take 1)
              (if cleaf then cchildren else cchildren.take 2)).num_keys = 1 := by
            simp only [btree_node.num_keys, btree_node.keys, List.length_take, hfull']
            decide
          have hLh : height (btree_node.mk cleaf (ckeys.take 1)
              (if cleaf then cchildren else cchildren.take 2)) ≤ fuel :=
            le_trans hLRh.1 hchh
          have IH := ih (btree_node.mk cleaf (ckeys.take 1)
              (if cleaf then cchildren else cchildren.take 2)) key
            (chLb lo keys (findSlot key keys)) (some (ckeys.getD 1 0))
            hLh hLR.1 (by rw [hLn]; decide) hlbk (by simp only [ubOk]; omega)
          have hlb' : chLb lo (keys.take (findSlot key keys) ++
              ckeys.getD 1 0 :: keys.drop (findSlot key keys))
              (findSlot key keys) = chLb lo keys (findSlot key keys) := by
            by_cases h0 : findSlot key keys = 0
            · rw [chLb, if_pos h0, chLb, if_pos h0]
            · rw [chLb, if_neg h0, chLb, if_neg h0,
                ins_getD_lt 0 keys _ _ _ (by omega) hile]
          have hub' : chUb hi (keys.take (findSlot key keys) ++
              ckeys.getD 1 0 :: keys.drop (findSlot key keys))
              (findSlot key keys) = some (ckeys.getD 1 0) := by
            rw [chUb, if_neg (by rw [hKlen]; omega), hSgd]
          have IH1 := IH.1
          rw [← hlb'] at IH1
          rw [← hub'] at IH1
          have hocc1 := IH.2.2.1
          rw [hLn] at hocc1
          have hset := set_child_spec (j := findSlot key keys) hwfn'
            (by rw [hKlen]; omega) IH1 (by rw [hgd]; exact IH.2.1) hocc1
          refine ⟨hset.1, ?_, ?_, ?_⟩
          · rw [hset.2, hkmn']
          · simp only [btree_node.num_keys, btree_node.keys]
            rw [hKlen]
            omega
          · simp only [btree_node.num_keys, btree_node.keys]
            rw [hKlen]
      · rw [if_neg hfull]
        have hclt : (children.getD (findSlot key keys) default).num_keys <
            BTREE_MAX_KEYS := by
          have := wf_keys_len hwfc
          have hne2 : (children.getD (findSlot key keys) default).num_keys ≤
              BTREE_MAX_KEYS := this
          omega
        have IH := ih (children.getD (findSlot key keys) default) key
          (chLb lo keys (findSlot key keys)) (chUb hi keys (findSlot key keys))
          hchh hwfc hclt hlbk hubk
        have hset := set_child_spec hwf0 hile IH.1 IH.2.1
          (le_trans (hocc _ hchmem) IH.2.2.1)
        refine ⟨hset.1, hset.2, ?_, ?_⟩
        · simp only [btree_node.num_keys, btree_node.keys]
          omega
        · simp only [btree_node.num_keys, btree_node.keys]
          omega

/-! ## Search correctness -/

theorem wf_keysM_bounds : ∀ (n : Nat) (t : btree_node) (lo hi : Option Nat),
    height t ≤ n → WF lo hi t → ∀ k ∈ keysM t, lbOk lo k ∧ ubOk hi k := by
  intro n
  induction n with
  | zero =>
    intro t lo hi hh
    have := height_pos t
    omega
  | succ n ih =>
    intro t lo hi hh hwf k hk
    obtain ⟨tleaf, keys, children, rfl⟩ := btree_node.exists_mk t
    rw [keysM_mk] at hk
    rcases Multiset.mem_add.1 hk with hk | hk
    · cases tleaf with
      | true => rw [WF] at hwf; exact hwf.2.2.2 k (Multiset.mem_coe.1 hk)
      | false => rw [WF] at hwf; exact hwf.2.2.2.1 k (Multiset.mem_coe.1 hk)
    · obtain ⟨c, hc, hkc⟩ := mem_keysML.1 hk
      cases tleaf with
      | true =>
        rw [WF] at hwf
        rw [hwf.1] at hc
        simp at hc
      | false =>
        rw [WF] at hwf
        obtain ⟨-, -, -, hb, -, hchn⟩ := hwf
        obtain ⟨j, hj, hcj⟩ := List.mem_iff_getElem.1 hc
        have hcd : children.getD j default = c := by
          rw [List.getD_eq_getElem children default hj, hcj]
        have hjle : j ≤ keys.length := by
          have := chn_length hchn
          omega
        have hwfc := chn_getD_wf hchn hjle
        rw [hcd] at hwfc
        have hhc : height c ≤ n := by
          have := height_lt_of_mem false keys hc
          have h2 : height (btree_node.mk false keys children) ≤ n + 1 := hh
          omega
        have := ih c _ _ hhc hwfc k hkc
        exact ⟨chLb_weaken (fun x hx => (hb x hx).1) hjle this.1,
          chUb_weaken (fun x hx => (hb x hx).2) hjle this.2⟩

theorem btree_search_child_eq : ∀ (cs : List btree_node) (i key : Nat),
    i < cs.length →
    btree_search_child cs i key = btree_search_node (cs.getD i default) key := by
  intro cs
  induction cs with
  | nil => intro i key h; simp at h
  | cons c cs ihc =>
    intro i key h
    cases i with
    | zero => rw [btree_search_child, List.getD_cons_zero]
    | succ j =>
      rw [btree_search_child, List.getD_cons_succ]
      exact ihc j key (by simpa using h)

theorem search_iff : ∀ (n : Nat) (t : btree_node) (lo hi : Option Nat) (key : Nat),
    height t ≤ n → WF lo hi t →
    (btree_search_node t key = true ↔ key ∈ keysM t) := by
  intro n
  induction n with
  | zero =>
    intro t lo hi key hh
    have := height_pos t
    omega
  | succ n ih =>
    intro t lo hi key hh hwf
    obtain ⟨tleaf, keys, children, rfl⟩ := btree_node.exists_mk t
    have hsorted : List.Sorted (· ≤ ·) keys := by
      simpa [btree_node.keys] using wf_keys_sorted hwf
    cases hstep : searchStep key keys with
    | none =>
      simp only [btree_search_node, hstep]
      constructor
      · intro _
        rw [keysM_mk]
        exact Multiset.mem_add.2 (Or.inl (Multiset.mem_coe.2 (searchStep_none_mem hstep)))
      · intro _
        trivial
    | some i =>
      have hnotmem := searchStep_some_not_mem hsorted hstep
      obtain ⟨hi1, hi2, hi3⟩ := searchStep_some_spec hstep
      cases tleaf with
      | true =>
        rw [WF] at hwf
        obtain ⟨hcn, -, -, -⟩ := hwf
        subst hcn
        simp only [btree_search_node, hstep, if_pos rfl]
        constructor
        · intro h
          exact absurd h (by simp)
        · intro h
          rw [keysM_mk] at h
          simp only [keysML_nil, add_zero, Multiset.mem_coe] at h
          exact absurd h hnotmem
      | false =>
        rw [WF] at hwf
        obtain ⟨-, -, -, hb, -, hchn⟩ := hwf
        have hclen : children.length = keys.length + 1 := chn_length hchn
        have hilt : i < children.length := by omega
        simp only [btree_search_node, hstep, if_neg (by simp : ¬false = true)]
        rw [btree_search_child_eq children i key hilt]
        have hwfc := chn_getD_wf hchn hi1
        have hhc : height (children.getD i default) ≤ n := by
          have := height_lt_of_mem false keys
            (mem_getD default children i hilt)
          have h2 : height (btree_node.mk false keys children) ≤ n + 1 := hh
          omega
        rw [ih _ _ _ key hhc hwfc]
        constructor
        · intro h
          rw [keysM_mk]
          refine Multiset.mem_add.2 (Or.inr ?_)
          exact mem_keysML.2 ⟨_, mem_getD default children i hilt, h⟩
        · intro h
          rw [keysM_mk] at h
          rcases Multiset.mem_add.1 h with h' | h'
          · exact absurd (Multiset.mem_coe.1 h') hnotmem
          · obtain ⟨c, hc, hkc⟩ := mem_keysML.1 h'
            obtain ⟨j, hj, hcj⟩ := List.mem_iff_getElem.1 hc
            have hcd : children.getD j default = c := by
              rw [List.getD_eq_getElem children default hj, hcj]
            have hjle : j ≤ keys.length := by omega
            have hwfj := chn_getD_wf hchn hjle
            rw [hcd] at hwfj
            have hhj : height c ≤ n := by
              have := height_lt_of_mem false keys hc
              have h2 : height (btree_node.mk false keys children) ≤ n + 1 := hh
              omega
            have hkb := wf_keysM_bounds n c _ _ hhj hwfj key hkc
            have hji : j = i := by
              rcases Nat.lt_trichotomy j i with hji | hji | hji
              · exfalso
                have hjlen : j < keys.length := by omega
                have hub := hkb.2
                rw [chUb, if_neg (by omega)] at hub
                simp only [ubOk] at hub
                have := hi2 j hji
                omega
              · exact hji
              · exfalso
                have hlb := hkb.1
                rw [chLb, if_neg (by omega)] at hlb
                simp only [lbOk] at hlb
                have hilen : i < keys.length := by omega
                have h4 := hi3 hilen
                have h5 : keys.getD i 0 ≤ keys.getD (j - 1) 0 :=
                  sorted_getD_le hsorted (by omega) (by omega)
                omega
            rw [hji] at hcd
            rw [hcd]
            exact hkc

/-! ## Root-level invariant -/

/-- The tree handle is live and its root is well formed on the
unbounded key range. This holds for a fresh tree and is preserved by
every (fully allocated) insertion. -/
def rootWF (t : Option btree_root) : Prop :=
  ∃ r : btree_node, t = some ⟨some r⟩ ∧ WF none none r

theorem initTree_rootWF : rootWF initTree := by
  refine ⟨.mk true [] [], rfl, ?_⟩
  rw [WF]
  exact ⟨rfl, by simp, by decide, by simp⟩

theorem keysM_initTree : keysM (rootOf initTree) = 0 := rfl

theorem rootOf_some (r : btree_node) : rootOf (some ⟨some r⟩) = r := rfl

theorem insert_root_spec (t : Option btree_root) (key : Nat) (h : rootWF t) :
    rootWF (btree_insert t key) ∧
      keysM (rootOf (btree_insert t key)) = key ::ₘ keysM (rootOf t) := by
  obtain ⟨r, rfl, hwf⟩ := h
  simp only [btree_insert]
  by_cases hfull : r.num_keys = BTREE_MAX_KEYS
  · rw [if_pos hfull]
    obtain ⟨rl, rk, rc, rfl⟩ := btree_node.exists_mk r
    have hfull' : rk.length = BTREE_MAX_KEYS := by
      simpa [btree_node.num_keys, btree_node.keys] using hfull
    have hcd : [btree_node.mk rl rk rc].getD 0 default = btree_node.mk rl rk rc :=
      rfl
    rw [btree_split_child_eq hcd]
    simp only [List.take_zero, List.drop_zero, List.take_nil, List.drop_nil,
      List.nil_append, List.drop_succ_cons]
    have hLR := split_pieces_wf none none hwf hfull'
    have hLn : (btree_node.mk rl (rk.take 1)
        (if rl then rc else rc.take 2)).num_keys = 1 := by
      simp only [btree_node.num_keys, btree_node.keys, List.length_take, hfull']
      decide
    have hRn : (btree_node.mk rl ((rk.drop 2).take 1)
        (if rl then [] else (rc.drop 2).take 2)).num_keys = 1 := by
      simp only [btree_node.num_keys, btree_node.keys, List.length_take,
        List.length_drop, hfull']
      decide
    have hwfnr : WF none none (btree_node.mk false [rk.getD 1 0]
        [btree_node.mk rl (rk.take 1) (if rl then rc else rc.take 2),
         btree_node.mk rl ((rk.drop 2).take 1)
           (if rl then [] else (rc.drop 2).take 2)]) := by
      rw [WF]
      refine ⟨by simp, by simp, by simp [BTREE_MAX_KEYS, BTREE_ORDER], by simp [lbOk, ubOk], ?_, ?_⟩
      · intro c hc
        rcases List.mem_cons.1 hc with rfl | hc'
        · rw [hLn]
        · rcases List.mem_cons.1 hc' with rfl | hc''
          · rw [hRn]
          · simp at hc''
      · rw [WFChn]
        refine ⟨hLR.1, ?_⟩
        rw [WFChn]
        exact hLR.2
    have hkmnr : keysM (btree_node.mk false [rk.getD 1 0]
        [btree_node.mk rl (rk.take 1) (if rl then rc else rc.take 2),
         btree_node.mk rl ((rk.drop 2).take 1)
           (if rl then [] else (rc.drop 2).take 2)]) =
        keysM (btree_node.mk rl rk rc) := by
      have h1 := split_preserves_keysM false ([] : List Nat) hcd hwf hfull' (by simp)
      rw [btree_split_child_eq hcd] at h1
      simp only [List.take_zero, List.drop_zero, List.take_nil, List.drop_nil,
        List.nil_append, List.drop_succ_cons] at h1
      rw [h1, keysM_mk, keysML_cons, keysML_nil]
      simp
    have hspec := insert_nonfull_spec
      (height (btree_node.mk false [rk.getD 1 0]
        [btree_node.mk rl (rk.take 1) (if rl then rc else rc.take 2),
         btree_node.mk rl ((rk.drop 2).take 1)
           (if rl then [] else (rc.drop 2).take 2)]))
      (btree_node.mk false [rk.getD 1 0]
        [btree_node.mk rl (rk.take 1) (if rl then rc else rc.take 2),
         btree_node.mk rl ((rk.drop 2).take 1)
           (if rl then [] else (rc.drop 2).take 2)])
      key none none (le_refl _) hwfnr
      (by simp [btree_node.num_keys, btree_node.keys]; decide) trivial trivial
    refine ⟨⟨_, rfl, hspec.1⟩, ?_⟩
    rw [rootOf_some, rootOf_some, hspec.2.1, hkmnr]
  · rw [if_neg hfull]
    have hlt : r.num_keys < BTREE_MAX_KEYS :=
      lt_of_le_of_ne (wf_keys_len hwf) hfull
    have hspec := insert_nonfull_spec (height r) r key none none (le_refl _)
      hwf hlt trivial trivial
    refine ⟨⟨_, rfl, hspec.1⟩, ?_⟩
    rw [rootOf_some, rootOf_some, hspec.2.1]

theorem insertAll_spec : ∀ (ks : List Nat) (t : Option btree_root), rootWF t →
    rootWF (insertAll ks t) ∧
      keysM (rootOf (insertAll ks t)) = keysM (rootOf t) + (ks : Multiset Nat) := by
  intro ks
  induction ks with
  | nil =>
    intro t h
    exact ⟨h, by simp [insertAll]⟩
  | cons k ks ihk =>
    intro t h
    have h1 := insert_root_spec t k h
    have h2 := ihk (btree_insert t k) h1.1
    refine ⟨by simpa [insertAll] using h2.1, ?_⟩
    have : insertAll (k :: ks) t = insertAll ks (btree_insert t k) := by
      rw [insertAll, insertAll, List.foldl_cons]
    rw [this, h2.2, h1.2]
    simp only [← Multiset.cons_coe]
    simp only [← Multiset.singleton_add]
    abel

/-! ## Invariant checkers from well-formedness -/

theorem orderWeakOkL_eq_true {cs : List btree_node} :
    orderWeakOkL cs = true ↔ ∀ c ∈ cs, orderWeakOk c = true := by
  induction cs with
  | nil => simp [orderWeakOkL]
  | cons c cs ihc =>
    rw [orderWeakOkL, Bool.and_eq_true, ihc]
    constructor
    · rintro ⟨h1, h2⟩ x hx
      rcases List.mem_cons.1 hx with rfl | hx'
      · exact h1
      · exact h2 x hx'
    · intro h
      exact ⟨h c (by simp), fun x hx => h x (List.mem_cons_of_mem _ hx)⟩

theorem occOkL_eq_true {cs : List btree_node} :
    occOkL cs = true ↔ ∀ c ∈ cs, occOk false c = true := by
  induction cs with
  | nil => simp [occOkL]
  | cons c cs ihc =>
    rw [occOkL, Bool.and_eq_true, ihc]
    constructor
    · rintro ⟨h1, h2⟩ x hx
      rcases List.mem_cons.1 hx with rfl | hx'
      · exact h1
      · exact h2 x hx'
    · intro h
      exact ⟨h c (by simp), fun x hx => h x (List.mem_cons_of_mem _ hx)⟩

theorem wf_orderWeakOk : ∀ (n : Nat) (t : btree_node) (lo hi : Option Nat),
    height t ≤ n → WF lo hi t → orderWeakOk t = true := by
  intro n
  induction n with
  | zero =>
    intro t lo hi hh
    have := height_pos t
    omega
  | succ n ih =>
    intro t lo hi hh hwf
    obtain ⟨tleaf, keys, children, rfl⟩ := btree_node.exists_mk t
    rw [orderWeakOk, Bool.and_eq_true]
    cases tleaf with
    | true =>
      rw [WF] at hwf
      obtain ⟨hcn, -, -, -⟩ := hwf
      subst hcn
      exact ⟨by simp, by rw [orderWeakOkL]⟩
    | false =>
      rw [WF] at hwf
      obtain ⟨-, -, -, -, -, hchn⟩ := hwf
      have hclen : children.length = keys.length + 1 := chn_length hchn
      constructor
      · rw [Bool.or_eq_true]
        refine Or.inr ?_
        rw [List.all_eq_true]
        intro i hi'
        rw [List.mem_range] at hi'
        rw [Bool.and_eq_true, List.all_eq_true, List.all_eq_true]
        constructor
        · intro k hk
          rw [decide_eq_true_eq]
          have hwfc := chn_getD_wf hchn (le_of_lt hi')
          have hhc : height (children.getD i default) ≤ n := by
            have := height_lt_of_mem false keys
              (mem_getD default children i (by omega))
            have h2 : height (btree_node.mk false keys children) ≤ n + 1 := hh
            omega
          have hb := wf_keysM_bounds n _ _ _ hhc hwfc k (Multiset.mem_coe.2 hk)
          have := hb.2
          rw [chUb, if_neg (by omega)] at this
          exact this
        · intro k hk
          rw [decide_eq_true_eq]
          have hwfc := chn_getD_wf hchn (by omega : i + 1 ≤ keys.length)
          have hhc : height (children.getD (i + 1) default) ≤ n := by
            have := height_lt_of_mem false keys
              (mem_getD default children (i + 1) (by omega))
            have h2 : height (btree_node.mk false keys children) ≤ n + 1 := hh
            omega
          have hb := wf_keysM_bounds n _ _ _ hhc hwfc k (Multiset.mem_coe.2 hk)
          have := hb.1
          rw [chLb, if_neg (by omega)] at this
          simpa using this
      · rw [orderWeakOkL_eq_true]
        intro c hc
        obtain ⟨j, hj, hcj⟩ := List.mem_iff_getElem.1 hc
        have hcd : children.getD j default = c := by
          rw [List.getD_eq_getElem children default hj, hcj]
        have hwfc := chn_getD_wf hchn (by omega : j ≤ keys.length)
        rw [hcd] at hwfc
        have hhc : height c ≤ n := by
          have := height_lt_of_mem false keys hc
          have h2 : height (btree_node.mk false keys children) ≤ n + 1 := hh
          omega
        exact ih c _ _ hhc hwfc

theorem wf_occOk : ∀ (n : Nat) (t : btree_node) (lo hi : Option Nat)
    (isRoot : Bool), height t ≤ n → WF lo hi t →
    (isRoot = true ∨ 1 ≤ t.num_keys) → occOk isRoot t = true := by
  intro n
  induction n with
  | zero =>
    intro t lo hi isRoot hh
    have := height_pos t
    omega
  | succ n ih =>
    intro t lo hi isRoot hh hwf hroot
    obtain ⟨tleaf, keys, children, rfl⟩ := btree_node.exists_mk t
    rw [occOk, Bool.and_eq_true, Bool.and_eq_true]
    refine ⟨⟨?_, ?_⟩, ?_⟩
    · rw [decide_eq_true_eq]
      exact wf_keys_len hwf
    · rcases hroot with h | h
      · rw [h, Bool.true_or]
      · rw [Bool.or_eq_true]
        refine Or.inr ?_
        rw [decide_eq_true_eq]
        simpa [btree_node.num_keys, btree_node.keys] using h
    · rw [occOkL_eq_true]
      intro c hc
      cases tleaf with
      | true =>
        rw [WF] at hwf
        rw [hwf.1] at hc
        simp at hc
      | false =>
        rw [WF] at hwf
        obtain ⟨-, -, -, -, hocc, hchn⟩ := hwf
        obtain ⟨j, hj, hcj⟩ := List.mem_iff_getElem.1 hc
        have hcd : children.getD j default = c := by
          rw [List.getD_eq_getElem children default hj, hcj]
        have hclen : children.length = keys.length + 1 := chn_length hchn
        have hwfc := chn_getD_wf hchn (by omega : j ≤ keys.length)
        rw [hcd] at hwfc
        have hhc : height c ≤ n := by
          have := height_lt_of_mem false keys hc
          have h2 : height (btree_node.mk false keys children) ≤ n + 1 := hh
          omega
        exact ih c _ _ false hhc hwfc (Or.inr (hocc c hc))

/-! ## Claim theorems -/

/-- C1: for every sequence of keys inserted into a freshly created tree
(every allocation succeeding), `btree_search` returns true exactly for
the keys that occur in the sequence: true for every inserted key, false
for every key not equal to any inserted key. -/
theorem C1_search_correct (ks : List Nat) (k : Nat) :
    btree_search (insertAll ks initTree) k = true ↔ k ∈ ks := by
  obtain ⟨hroot, hkm⟩ := insertAll_spec ks initTree initTree_rootWF
  obtain ⟨r, heq, hwf⟩ := hroot
  rw [heq] at hkm ⊢
  rw [rootOf_some, keysM_initTree, zero_add] at hkm
  show btree_search_node r k = true ↔ k ∈ ks
  rw [search_iff (height r) r none none k (le_refl _) hwf, hkm, Multiset.mem_coe]

/-- C2 counterexample: the order invariant as claimed (keys in
`children[i]` strictly below `keys[i]`) fails on the code: after
inserting `10, 20, 30, 40, 30, 30` into a fresh tree, the root is
`[20, 30]` and `children[1] = [30, 30]` contains a key equal to
`keys[1] = 30`, so the full-traversal check returns false. -/
theorem C2_counterexample :
    orderStrictOk (rootOf (insertAll [10, 20, 30, 40, 30, 30] initTree)) = false ∧
    rootOf (insertAll [10, 20, 30, 40, 30, 30] initTree) =
      .mk false [20, 30]
        [.mk true [10] [], .mk true [30, 30] [], .mk true [40] []] :=
  ⟨rfl, rfl⟩

/-- C2 (amended): after any sequence of insertions into a freshly
created tree (every allocation succeeding), every internal node
satisfies the order invariant with a weak left bound: for every index
`i`, all keys in the subtree `children[i]` are `≤ keys[i]` and all keys
in the subtree `children[i+1]` are `≥ keys[i]` (full traversal). -/
theorem C2_order_invariant (ks : List Nat) :
    orderWeakOk (rootOf (insertAll ks initTree)) = true := by
  obtain ⟨r, heq, hwf⟩ := (insertAll_spec ks initTree initTree_rootWF).1
  rw [heq, rootOf_some]
  exact wf_orderWeakOk (height r) r none none (le_refl _) hwf

/-- C7: after any sequence of insertions into a freshly created tree
(every allocation succeeding), every node's key count is at most
`BTREE_MAX_KEYS` (and trivially at least 0), every node other than the
root has at least one key — `BTREE_MIN_KEYS = 1` — and only the root
may be empty. -/
theorem C7_occupancy (ks : List Nat) :
    occOk true (rootOf (insertAll ks initTree)) = true ∧ BTREE_MIN_KEYS = 1 := by
  obtain ⟨r, heq, hwf⟩ := (insertAll_spec ks initTree initTree_rootWF).1
  rw [heq, rootOf_some]
  exact ⟨wf_occOk (height r) r none none true (le_refl _) hwf (Or.inl rfl), rfl⟩

/-- C8: on any tree reachable by insertions from a fresh tree (every
allocation succeeding), inserting the same key twice succeeds both
times — both copies are stored, the key multiset grows by two — and
`btree_search` returns true afterwards. -/
theorem C8_duplicate_tolerance (ks : List Nat) (k : Nat) :
    btree_search (btree_insert (btree_insert (insertAll ks initTree) k) k) k = true ∧
    keysM (rootOf (btree_insert (btree_insert (insertAll ks initTree) k) k)) =
      k ::ₘ k ::ₘ keysM (rootOf (insertAll ks initTree)) := by
  have h0 := (insertAll_spec ks initTree initTree_rootWF).1
  have h1 := insert_root_spec (insertAll ks initTree) k h0
  have h2 := insert_root_spec (btree_insert (insertAll ks initTree) k) k h1.1
  obtain ⟨r, heq, hwf⟩ := h2.1
  constructor
  · rw [heq]
    show btree_search_node r k = true
    rw [search_iff (height r) r none none k (le_refl _) hwf]
    have : keysM r = k ::ₘ keysM (rootOf (btree_insert (insertAll ks initTree) k)) := by
      rw [← rootOf_some r, ← heq]
      exact h2.2
    rw [this]
    exact Multiset.mem_cons_self _ _
  · rw [h2.2, h1.2]

/-- C3 counterexample: the claim predicts that the destination slot is
shifted right (so a target equal to the promoted median goes into the
right-hand child), but the code's test is `key > node->keys[i]`: with
target 30 and promoted median 30 the slot is *not* shifted
(`splitShift 30 30 1 = 1`, not 2), and the full insertion run places
the duplicate 30 in the left-hand child `[30, 30]`, not in the
right-hand child `[40]`. -/
theorem C3_counterexample :
    (30 : Nat) ≤ 30 ∧ splitShift 30 30 1 = 1 ∧
    rootOf (btree_insert (insertAll [10, 20, 30, 40, 30] initTree) 30) =
      .mk false [20, 30]
        [.mk true [10] [], .mk true [30, 30] [], .mk true [40] []] :=
  ⟨le_refl 30, rfl, rfl⟩

/-- C3 (amended): after splitting the full child, the key stored at
`parent.keys[index]` is the promoted median `full_child.keys[mid]`, and
the destination slot is shifted right by one exactly when the promoted
median is strictly less than the target key; a target equal to the
median goes into the left-hand child. -/
theorem C3_shift_iff {pleaf cleaf : Bool} {pkeys : List Nat}
    {pchildren : List btree_node} {ckeys : List Nat}
    {cchildren : List btree_node} (key index : Nat)
    (hcd : pchildren.getD index default = .mk cleaf ckeys cchildren)
    (hroom : index ≤ pkeys.length) :
    (btree_split_child (.mk pleaf pkeys pchildren) index).keys.getD index 0 =
      ckeys.getD (BTREE_MAX_KEYS / 2) 0 ∧
    ∀ i : Nat, splitShift key (ckeys.getD (BTREE_MAX_KEYS / 2) 0) i = i + 1 ↔
      ckeys.getD (BTREE_MAX_KEYS / 2) 0 < key := by
  constructor
  · rw [btree_split_child_eq hcd]
    show (pkeys.take index ++ ckeys.getD 1 0 :: pkeys.drop index).getD index 0 =
      ckeys.getD (BTREE_MAX_KEYS / 2) 0
    rw [ins_getD_self 0 pkeys _ index hroom]
    rfl
  · intro i
    rw [splitShift]
    by_cases h : ckeys.getD (BTREE_MAX_KEYS / 2) 0 < key
    · rw [if_pos h]
      exact iff_of_true rfl h
    · rw [if_neg h]
      exact iff_of_false (by omega) h

theorem C3_shift_iff_witness :
    (([btree_node.mk true [1, 2, 3] [], btree_node.mk true [7] []].getD 0 default =
        btree_node.mk true [1, 2, 3] []) ∧ 0 ≤ ([5] : List Nat).length) ∧
    ((btree_split_child (.mk false [5]
        [btree_node.mk true [1, 2, 3] [], btree_node.mk true [7] []]) 0).keys.getD 0 0 =
      ([1, 2, 3] : List Nat).getD (BTREE_MAX_KEYS / 2) 0 ∧
    ∀ i : Nat, splitShift 4 (([1, 2, 3] : List Nat).getD (BTREE_MAX_KEYS / 2) 0) i = i + 1 ↔
      ([1, 2, 3] : List Nat).getD (BTREE_MAX_KEYS / 2) 0 < 4) :=
  ⟨⟨rfl, by decide⟩, C3_shift_iff 4 0 rfl (by decide)⟩

theorem spl_getD_lt {α : Type} (d : α) (l : List α) (x y : α) (i j : Nat)
    (hj : j < i) (hi : i ≤ l.length) :
    (l.take i ++ x :: y :: l.drop (i + 1)).getD j d = l.getD j d := by
  rw [List.getD_append _ _ _ _ (by simp only [List.length_take]; omega),
    getD_take_of_lt _ _ _ _ hj]

theorem spl_getD_gt {α : Type} (d : α) (l : List α) (x y : α) (i j : Nat)
    (hij : i + 1 ≤ j) (hi : i < l.length) :
    (l.take i ++ x :: y :: l.drop (i + 1)).getD (j + 1) d = l.getD j d := by
  rw [List.getD_append_right _ _ _ _ (by simp only [List.length_take]; omega)]
  have h1 : j + 1 - (l.take i).length = (j - i - 1) + 1 + 1 := by
    simp only [List.length_take]
    omega
  rw [h1, List.getD_cons_succ, List.getD_cons_succ, getD_drop]
  congr 1
  omega

/-- C6: `btree_split_child(parent, index)` on a child with exactly
`BTREE_MAX_KEYS` keys, with `mid = BTREE_MAX_KEYS / 2` (integer
division): the new sibling (installed at `parent.children[index+1]`)
has the same leaf flag and holds the full child's keys at positions
`mid+1 .. BTREE_MAX_KEYS-1` (and, if internal, its children at
`mid+1 .. BTREE_MAX_KEYS`); the original child is truncated to its
first `mid` keys (and, if internal, its first `mid+1` children); the
median `full_child.keys[mid]` lands at `parent.keys[index]` after the
parent's keys and children at positions `≥ index` (resp. `≥ index+1`)
are shifted right by one; and the parent's key count grows by one. -/
theorem C6_split_spec {pleaf cleaf : Bool} {pkeys : List Nat}
    {pchildren : List btree_node} {ckeys : List Nat}
    {cchildren : List btree_node} (index : Nat)
    (hcd : pchildren.getD index default = .mk cleaf ckeys cchildren)
    (hfull : ckeys.length = BTREE_MAX_KEYS)
    (hroom : index ≤ pkeys.length) (hlt : index < pchildren.length) :
    ((btree_split_child (.mk pleaf pkeys pchildren) index).children.getD
        (index + 1) default).leafFlag = cleaf ∧
    ((btree_split_child (.mk pleaf pkeys pchildren) index).children.getD
        (index + 1) default).num_keys =
      BTREE_MAX_KEYS - BTREE_MAX_KEYS / 2 - 1 ∧
    (∀ j < BTREE_MAX_KEYS - BTREE_MAX_KEYS / 2 - 1,
      ((btree_split_child (.mk pleaf pkeys pchildren) index).children.getD
          (index + 1) default).keys.getD j 0 =
        ckeys.getD (j + BTREE_MAX_KEYS / 2 + 1) 0) ∧
    (cleaf = false → ∀ j < BTREE_MAX_KEYS - BTREE_MAX_KEYS / 2,
      ((btree_split_child (.mk pleaf pkeys pchildren) index).children.getD
          (index + 1) default).children.getD j default =
        cchildren.getD (j + BTREE_MAX_KEYS / 2 + 1) default) ∧
    ((btree_split_child (.mk pleaf pkeys pchildren) index).children.getD
        index default).leafFlag = cleaf ∧
    ((btree_split_child (.mk pleaf pkeys pchildren) index).children.getD
        index default).keys = ckeys.take (BTREE_MAX_KEYS / 2) ∧
    (cleaf = false →
      ((btree_split_child (.mk pleaf pkeys pchildren) index).children.getD
          index default).children = cchildren.take (BTREE_MAX_KEYS / 2 + 1)) ∧
    (btree_split_child (.mk pleaf pkeys pchildren) index).keys.getD index 0 =
      ckeys.getD (BTREE_MAX_KEYS / 2) 0 ∧
    (∀ j < index,
      (btree_split_child (.mk pleaf pkeys pchildren) index).keys.getD j 0 =
        pkeys.getD j 0) ∧
    (∀ j, index ≤ j → j < pkeys.length →
      (btree_split_child (.mk pleaf pkeys pchildren) index).keys.getD (j + 1) 0 =
        pkeys.getD j 0) ∧
    (∀ j < index,
      (btree_split_child (.mk pleaf pkeys pchildren) index).children.getD j
        default = pchildren.getD j default) ∧
    (∀ j, index + 1 ≤ j → j < pchildren.length →
      (btree_split_child (.mk pleaf pkeys pchildren) index).children.getD (j + 1)
        default = pchildren.getD j default) ∧
    (btree_split_child (.mk pleaf pkeys pchildren) index).num_keys =
      pkeys.length + 1 := by
  rw [btree_split_child_eq hcd]
  simp only [btree_node.children, btree_node.keys, btree_node.num_keys]
  have hgd1 := spl_getD_succ default pchildren
    (btree_node.mk cleaf (ckeys.take 1) (if cleaf then cchildren else cchildren.take 2))
    (btree_node.mk cleaf ((ckeys.drop 2).take 1)
      (if cleaf then [] else (cchildren.drop 2).take 2)) index hlt
  have hgd0 := spl_getD_self default pchildren
    (btree_node.mk cleaf (ckeys.take 1) (if cleaf then cchildren else cchildren.take 2))
    (btree_node.mk cleaf ((ckeys.drop 2).take 1)
      (if cleaf then [] else (cchildren.drop 2).take 2)) index hlt
  rw [hgd1, hgd0]
  simp only [btree_node.leafFlag, btree_node.keys, btree_node.children,
    btree_node.num_keys]
  refine ⟨trivial, ?_, ?_, ?_, trivial, rfl, ?_, ?_, ?_, ?_, ?_, ?_, ?_⟩
  · simp only [List.length_take, List.length_drop, hfull]
    decide
  · intro j hj
    have hj0 : j = 0 := by
      rw [show BTREE_MAX_KEYS - BTREE_MAX_KEYS / 2 - 1 = 1 from rfl] at hj
      omega
    subst hj0
    rw [getD_take_of_lt _ _ _ _ (by decide : (0 : Nat) < 1), getD_drop]
    congr 1
  · intro hcl j hj
    rw [show BTREE_MAX_KEYS - BTREE_MAX_KEYS / 2 = 2 from rfl] at hj
    subst hcl
    rw [if_neg (by simp), getD_take_of_lt _ _ _ _ hj, getD_drop]
    congr 1
    rw [show BTREE_MAX_KEYS / 2 = 1 from rfl]
    omega
  · intro hcl
    subst hcl
    rw [if_neg (by simp)]
    rfl
  · rw [ins_getD_self 0 pkeys _ index hroom]
    rfl
  · intro j hj
    exact ins_getD_lt 0 pkeys _ index j hj hroom
  · intro j hj1 hj2
    exact ins_getD_gt 0 pkeys _ index j hj1 hroom
  · intro j hj
    exact spl_getD_lt default pchildren _ _ index j hj (le_of_lt hlt)
  · intro j hj1 hj2
    exact spl_getD_gt default pchildren _ _ index j hj1 hlt
  · rw [ins_length pkeys _ index hroom]

theorem C6_split_spec_witness :
    (([btree_node.mk false [10, 20, 30]
        [btree_node.mk true [1] [], btree_node.mk true [2] [],
         btree_node.mk true [3] [], btree_node.mk true [4] []]].getD 0 default =
      btree_node.mk false [10, 20, 30]
        [btree_node.mk true [1] [], btree_node.mk true [2] [],
         btree_node.mk true [3] [], btree_node.mk true [4] []]) ∧
     ([10, 20, 30] : List Nat).length = BTREE_MAX_KEYS ∧
     0 ≤ ([50] : List Nat).length ∧ 0 < 1) ∧
    (btree_split_child (.mk false [50]
        [btree_node.mk false [10, 20, 30]
          [btree_node.mk true [1] [], btree_node.mk true [2] [],
           btree_node.mk true [3] [], btree_node.mk true [4] []]]) 0).keys.getD 0 0 =
      ([10, 20, 30] : List Nat).getD (BTREE_MAX_KEYS / 2) 0 ∧
    (btree_split_child (.mk false [50]
        [btree_node.mk false [10, 20, 30]
          [btree_node.mk true [1] [], btree_node.mk true [2] [],
           btree_node.mk true [3] [], btree_node.mk true [4] []]]) 0).num_keys =
      ([50] : List Nat).length + 1 :=
  ⟨⟨rfl, rfl, by decide, by decide⟩,
    (@C6_split_spec false false [50]
      [btree_node.mk false [10, 20, 30]
        [btree_node.mk true [1] [], btree_node.mk true [2] [],
         btree_node.mk true [3] [], btree_node.mk true [4] []]]
      [10, 20, 30]
      [btree_node.mk true [1] [], btree_node.mk true [2] [],
       btree_node.mk true [3] [], btree_node.mk true [4] []]
      0 rfl rfl (by decide) (by decide)).2.2.2.2.2.2.2.1,
    (@C6_split_spec false false [50]
      [btree_node.mk false [10, 20, 30]
        [btree_node.mk true [1] [], btree_node.mk true [2] [],
         btree_node.mk true [3] [], btree_node.mk true [4] []]]
      [10, 20, 30]
      [btree_node.mk true [1] [], btree_node.mk true [2] [],
       btree_node.mk true [3] [], btree_node.mk true [4] []]
      0 rfl rfl (by decide) (by decide)).2.2.2.2.2.2.2.2.2.2.2.2⟩

/-- C4: the code does not abort the insert when the sibling allocation
inside a split fails. On the tree with root `[20]` and children
`[5,10,15]` (full) and `[30]`, inserting key 0 with the split's
`kzalloc` failing: `btree_split_child` returns silently, the caller
proceeds to recurse into the still-full child, and the leaf insertion
writes a fourth key — `num_keys` becomes `BTREE_MAX_KEYS + 1 = 4`, an
out-of-bounds write past the fixed-size `keys[BTREE_MAX_KEYS]` array in
the C code — and the tree is modified instead of being left unchanged. -/
theorem C4_split_alloc_failure :
    rootOf (btree_insertA (some ⟨some (.mk false [20]
        [.mk true [5, 10, 15] [], .mk true [30] []])⟩) 0 [false]).1 =
      .mk false [20] [.mk true [0, 5, 10, 15] [], .mk true [30] []] ∧
    ((rootOf (btree_insertA (some ⟨some (.mk false [20]
        [.mk true [5, 10, 15] [], .mk true [30] []])⟩) 0 [false]).1).children.getD
      0 default).num_keys = BTREE_MAX_KEYS + 1 :=
  ⟨rfl, rfl⟩

/-- C5: when the root is full and the allocation of the new root
fails, `btree_insert` returns at once: the tree is left completely
unchanged — but the function is `void`, so its entire observable
outcome is the unchanged tree; no failure is reported to the caller. -/
theorem C5_newroot_alloc_failure :
    btree_insertA (some ⟨some (.mk true [10, 20, 30] [])⟩) 40 [false] =
      (some ⟨some (.mk true [10, 20, 30] [])⟩, []) :=
  rfl

/-- C9: `btree_init()` returns a tree whose root is a single empty
leaf when both allocations succeed; if either the handle or the root
node allocation fails, it returns a failure (`NULL`) and leaves no
partial state — zero live allocations, the partially allocated handle
having been `kfree`d. -/
theorem C9_create (a1 a2 : Bool) :
    (a1 = true → a2 = true →
      btree_initA a1 a2 = (some ⟨some (.mk true [] [])⟩, 2)) ∧
    ((a1 = false ∨ a2 = false) → btree_initA a1 a2 = (none, 0)) := by
  cases a1 with
  | false => exact ⟨fun h _ => absurd h (by decide), fun _ => rfl⟩
  | true =>
    cases a2 with
    | false => exact ⟨fun _ h => absurd h (by decide), fun _ => rfl⟩
    | true =>
      refine ⟨fun _ _ => rfl, ?_⟩
      rintro (h | h) <;> cases h

theorem C9_create_witness :
    btree_initA true false = (none, 0) ∧
    btree_initA true true = (some ⟨some (.mk true [] [])⟩, 2) :=
  ⟨(C9_create true false).2 (Or.inr rfl), (C9_create true true).1 rfl rfl⟩

/-- C10: every public operation tolerates a null tree handle (and a
null root pointer): `btree_search` returns false, `btree_insert`
leaves all state unchanged, `btree_destroy` is a no-op (zero frees on
a null handle), and `btree_print` reports an empty tree. -/
theorem C10_null_tolerance :
    (∀ key : Nat, btree_search none key = false) ∧
    (∀ key : Nat, btree_search (some ⟨none⟩) key = false) ∧
    (∀ key : Nat, btree_insert none key = none) ∧
    (∀ key : Nat, btree_insert (some ⟨none⟩) key = some ⟨none⟩) ∧
    btree_destroy none = 0 ∧
    btree_print none = ["B+ Tree is empty."] ∧
    btree_print (some ⟨none⟩) = ["B+ Tree is empty."] :=
  ⟨fun _ => rfl, fun _ => rfl, fun _ => rfl, fun _ => rfl, rfl, rfl, rfl⟩
